import Mathlib

/-!
Verification of the JobHunter crawl / email-extraction core.

The embedding follows the TypeScript source:
  * `emailExtract.ts`  — `normalizeEmailText`, `EMAIL_REGEX` scanning,
    `decontaminatePhoneSuffixUser`, the validators and
    `extractEmailsFromText`;
  * `crawl.ts`         — `normalizeTextForEmailHarvest`, `scoreLink`,
    `collectScoredInternalLinks`, `extractEmailsFromHtmlBetter`,
    `rankEmails`, `crawlForEmails`;
  * `urls.ts`          — `normalizeBaseUrl`, `extractHostnameCandidate`,
    `buildOriginCandidates`, `resolveCanonicalBaseUrl`;
  * `fetch.ts`         — `fetchHtml`.

Text is modelled as `List Char`.  JavaScript's `String.prototype.replace`
with a global regex and `RegExp.exec` loops are modelled by explicit
left-to-right scanners that mirror the concrete regexes of the source.
-/

set_option maxRecDepth 4096

abbrev Str := List Char

def strOf (s : String) : Str := s.toList

/-- ASCII lowercase of one character (model of JS `toLowerCase` for the
ASCII range used by the source's data). -/
def lowerChar (c : Char) : Char := c.toLower

def lowerStr (s : Str) : Str := s.map lowerChar

def isDigitCh (c : Char) : Bool := '0' ≤ c ∧ c ≤ '9'
def isLowerCh (c : Char) : Bool := 'a' ≤ c ∧ c ≤ 'z'
def isUpperCh (c : Char) : Bool := 'A' ≤ c ∧ c ≤ 'Z'
def isAlphaCh (c : Char) : Bool := isLowerCh c || isUpperCh c

/-- The character class `[a-z0-9._%+-]` of EMAIL_REGEX with the `i` flag. -/
def localCls (c : Char) : Bool :=
  isLowerCh c || isUpperCh c || isDigitCh c ||
    c = '.' || c = '_' || c = '%' || c = '+' || c = '-'

/-- The character class `[a-z0-9.-]` of EMAIL_REGEX with the `i` flag. -/
def domCls (c : Char) : Bool :=
  isLowerCh c || isUpperCh c || isDigitCh c || c = '.' || c = '-'

/-- JS `\s` (the whitespace characters relevant to this code base). -/
def isWsCh (c : Char) : Bool :=
  c = ' ' || c = '\t' || c = '\n' || c = '\r' ||
    c = Char.ofNat 12 || c = Char.ofNat 11 || c = Char.ofNat 160

/-- substring test: does `s` contain `pat` as a contiguous run? -/
def containsSub (s pat : Str) : Bool :=
  match s with
  | [] => pat.isPrefixOf ([] : Str)
  | _ :: rest => pat.isPrefixOf s || containsSub rest pat

theorem containsSub_of_infix {s pat : Str} (h : pat <:+: s) :
    containsSub s pat = true := by
  rcases h with ⟨pre, post, rfl⟩
  induction pre with
  | nil =>
    cases pat with
    | nil => cases post <;> simp [containsSub, List.isPrefixOf]
    | cons c cs =>
      simp only [List.nil_append, containsSub, Bool.or_eq_true]
      exact Or.inl (List.isPrefixOf_iff_prefix.mpr ⟨post, rfl⟩)
  | cons p ps ih =>
    simp only [List.cons_append, containsSub, Bool.or_eq_true]
    exact Or.inr ih

theorem infix_of_containsSub {s pat : Str} (h : containsSub s pat = true) :
    pat <:+: s := by
  induction s with
  | nil =>
    cases pat with
    | nil => exact List.infix_rfl
    | cons c cs => simp [containsSub, List.isPrefixOf] at h
  | cons a t ih =>
    simp only [containsSub, Bool.or_eq_true] at h
    rcases h with h | h
    · exact (List.isPrefixOf_iff_prefix.mp h).isInfix
    · exact (ih h).trans ((List.suffix_cons a t).isInfix)

/-! ## JS `String.replace` with a global regex, for the patterns of the source

`replaceLits lits rep` models `s.replace(/L1|L2|.../gi, rep)` where each
`Li` is a literal:  scan left to right, at each position try the literals
in order (ASCII-case-insensitively), replace a match and continue after it.
`replaceAtDot parens bare rep` models the `\s*\(at\)\s*|\s*\[at\]\s*` (and,
with `bare = ["at"]`, the additional `\s+at\s+`) shaped patterns. -/

/-- Case-insensitive literal prefix: if `lit` is a prefix of `s` up to ASCII
case, return the remainder of `s`. -/
def dropLitCI : Str → Str → Option Str
  | [], s => some s
  | _ :: _, [] => none
  | l :: ls, c :: cs => if lowerChar c = lowerChar l then dropLitCI ls cs else none

theorem dropLitCI_length {lit s r : Str} (h : dropLitCI lit s = some r) :
    r.length + lit.length = s.length := by
  induction lit generalizing s with
  | nil => simp [dropLitCI] at h; simp [h]
  | cons l ls ih =>
    cases s with
    | nil => simp [dropLitCI] at h
    | cons c cs =>
      simp only [dropLitCI] at h
      split at h
      · have := ih h
        simp only [List.length_cons]
        omega
      · exact absurd h (by simp)

/-- Try the literals in order; empty literals are skipped (every literal in
the source's alternations is nonempty). -/
def findLits : List Str → Str → Option Str
  | [], _ => none
  | [] :: ls, s => findLits ls s
  | (l :: lt) :: ls, s =>
    match dropLitCI (l :: lt) s with
    | some r => some r
    | none => findLits ls s

theorem findLits_length {lits : List Str} {s r : Str}
    (h : findLits lits s = some r) : r.length < s.length := by
  induction lits with
  | nil => simp [findLits] at h
  | cons l ls ih =>
    cases l with
    | nil => exact ih (by simpa [findLits] using h)
    | cons x xt =>
      simp only [findLits] at h
      rcases hd : dropLitCI (x :: xt) s with _ | r'
      · rw [hd] at h; exact ih h
      · rw [hd] at h
        cases h
        have := dropLitCI_length hd
        simp only [List.length_cons] at this
        omega

/-- Fuel-based driver: the fuel only needs to cover the string length
(each step strictly shortens the string), and is set to exactly that by
`replaceLits`. -/
def replaceLitsGo (lits : List Str) (rep : Str) : Nat → Str → Str
  | _, [] => []
  | 0, s => s
  | n + 1, c :: rest =>
    match findLits lits (c :: rest) with
    | some r => rep ++ replaceLitsGo lits rep n r
    | none => c :: replaceLitsGo lits rep n rest

def replaceLits (lits : List Str) (rep : Str) (s : Str) : Str :=
  replaceLitsGo lits rep s.length s

/-- One attempt, at the current position, of the alternation
`\s*(P1)\s*|\s*(P2)\s*|...|\s+W\s+` (the `\s+W\s+` alternatives only when
`bare` is nonempty), returning the remainder after the match. -/
def matchAtDot (parens bare : List Str) (s : Str) : Option Str :=
  let w := s.takeWhile isWsCh
  let rest := s.dropWhile isWsCh
  match findLits parens rest with
  | some r => some (r.dropWhile isWsCh)
  | none =>
    if w.isEmpty then none
    else
      match findLits bare rest with
      | some r => if (r.takeWhile isWsCh).isEmpty then none else some (r.dropWhile isWsCh)
      | none => none

theorem lenDropWhileLe (p : Char → Bool) (l : Str) :
    (l.dropWhile p).length ≤ l.length := by
  induction l with
  | nil => simp
  | cons a t ih =>
    by_cases h : p a
    · simp only [List.dropWhile, h, List.length_cons]; omega
    · simp [List.dropWhile, h]

theorem matchAtDot_length {parens bare : List Str} {s r : Str}
    (h : matchAtDot parens bare s = some r) : r.length < s.length := by
  unfold matchAtDot at h
  simp only at h
  have h3 : (List.dropWhile isWsCh s).length ≤ s.length := lenDropWhileLe _ _
  rcases hp : findLits parens (s.dropWhile isWsCh) with _ | r1
  · rw [hp] at h
    by_cases hw : (s.takeWhile isWsCh).isEmpty
    · simp [hw] at h
    · simp only [hw, Bool.false_eq_true, if_false] at h
      rcases hb : findLits bare (s.dropWhile isWsCh) with _ | r2
      · rw [hb] at h; exact absurd h (by simp)
      · rw [hb] at h
        by_cases hc : (List.takeWhile isWsCh r2).isEmpty
        · simp [hc] at h
        · simp only [hc, Bool.false_eq_true, if_false, Option.some.injEq] at h
          subst h
          have h1 := findLits_length hb
          have h2 : (List.dropWhile isWsCh r2).length ≤ r2.length := lenDropWhileLe _ _
          omega
  · rw [hp] at h
    cases h
    have h1 := findLits_length hp
    have h2 : (List.dropWhile isWsCh r1).length ≤ r1.length := lenDropWhileLe _ _
    omega

def replaceAtDotGo (parens bare : List Str) (rep : Str) : Nat → Str → Str
  | _, [] => []
  | 0, s => s
  | n + 1, c :: rest =>
    match matchAtDot parens bare (c :: rest) with
    | some r => rep ++ replaceAtDotGo parens bare rep n r
    | none => c :: replaceAtDotGo parens bare rep n rest

def replaceAtDot (parens bare : List Str) (rep : Str) (s : Str) : Str :=
  replaceAtDotGo parens bare rep s.length s

/-- Zero-width characters stripped by both normalizers:
`/[​-‍﻿]/g`. -/
def isZeroWidth (c : Char) : Bool :=
  (0x200B ≤ c.toNat && c.toNat ≤ 0x200D) || c.toNat = 0xFEFF

def stripZeroWidth (s : Str) : Str := s.filter (fun c => !isZeroWidth c)

/-- `normalizeEmailText` from emailExtract.ts. -/
def normalizeEmailText (s : Str) : Str :=
  let s1 := replaceLits [strOf "&#64;", strOf "&#x40;", strOf "&commat;"] (strOf "@") s
  let s2 := replaceLits [strOf "&#46;", strOf "&#x2e;", strOf "&period;"] (strOf ".") s1
  let s3 := replaceAtDot [strOf "(at)", strOf "[at]"] [] (strOf "@") s2
  let s4 := replaceAtDot [strOf "(dot)", strOf "[dot]"] [] (strOf ".") s3
  stripZeroWidth s4

/-- `normalizeTextForEmailHarvest` from crawl.ts. -/
def normalizeTextForEmailHarvest (s : Str) : Str :=
  let s1 := replaceLits [strOf "&#64;", strOf "&commat;", strOf "&#x40;"] (strOf "@") s
  let s2 := replaceAtDot [strOf "(at)", strOf "[at]"] [strOf "at"] (strOf "@") s1
  let s3 := replaceAtDot [strOf "(dot)", strOf "[dot]"] [strOf "dot"] (strOf ".") s2
  let s4 := replaceAtDot [strOf "(ät)", strOf "[ät]"] [] (strOf "@") s3
  stripZeroWidth s4

/-! ## The `EMAIL_REGEX` scan loop

`EMAIL_REGEX = /([a-z0-9._%+-]+)@([a-z0-9.-]+\.[a-z]{2,})/gi`, executed in a
`while ((m = EMAIL_REGEX.exec(normalized)) !== null)` loop.  The scanner
below mirrors the backtracking behaviour of that concrete regex: the local
part is the maximal run of `localCls` characters (shortening it can never
reveal a following `@`); after the `@`, the engine takes the maximal run
`q` of `domCls` characters and backtracks to the rightmost `.` inside `q`
that is followed by at least two letters; the final `[a-z]{2,}` is greedy.
On failure the engine retries at the next position; matches do not
overlap. -/

/-- Backtracking search for the `\.[a-z]{2,}` split inside the maximal
domain-character run `q`: indices `k, k-1, …, 1` are tried for the dot of
the final label (`k = |q1|` for the greedy `[a-z0-9.-]+` prefix `q1`). -/
def domainSplitAt (q : Str) : Nat → Option (Str × Str)
  | 0 => none
  | k + 1 =>
    (if h : k + 1 < q.length then
      if q.get ⟨k + 1, h⟩ = '.' then
        let run := (q.drop (k + 2)).takeWhile isAlphaCh
        if 2 ≤ run.length then
          some (q.take (k + 1) ++ '.' :: run, q.drop (k + 2 + run.length))
        else none
      else none
    else none).orElse (fun _ => domainSplitAt q k)

def findDomainSplit (q : Str) : Option (Str × Str) :=
  domainSplitAt q (q.length - 1)

/-- After the greedy local part of a match attempt: require `@`, then the
greedy domain run and its backtracking split. -/
def matchAfterLocal (u : Str) : Str → Option (Str × Str × Str)
  | [] => none
  | c :: s2 =>
    if c = '@' then
      let q := s2.takeWhile domCls
      match findDomainSplit q with
      | some (d, remQ) => some (u, d, remQ ++ s2.drop q.length)
      | none => none
    else none

/-- One match attempt at the current position; returns
`(localPart, domain, remainder)`. -/
def matchEmailAt (s : Str) : Option (Str × Str × Str) :=
  let u := s.takeWhile localCls
  if u.isEmpty then none
  else matchAfterLocal u (s.drop u.length)

def emailScanGo : Nat → Str → List (Str × Str)
  | _, [] => []
  | 0, _ => []
  | n + 1, c :: rest =>
    match matchEmailAt (c :: rest) with
    | some (u, d, r) => (u, d) :: emailScanGo n r
    | none => emailScanGo n rest

/-- All raw `(localPart, domain)` matches of `EMAIL_REGEX` over `s`, in
order. -/
def emailScan (s : Str) : List (Str × Str) :=
  emailScanGo s.length s

/-! ## emailExtract.ts — lexicon, validators, extraction

The word lists come from an external `lexicon.yaml` (`loadLexicon`), which
is configuration, not code; the extraction functions are therefore
parameterised by an `EmailLexicon`.  `BLOCKED_USER_PATTERNS` is a list of
configured regexes applied with `.test`; it is abstracted as the boolean
predicate `blockedUserPat`. -/

structure EmailLexicon where
  blocked_extensions : List Str
  blocked_domain_suffixes : List Str
  good_prefixes : List Str
  reserved_domains : List Str
  bounce_fake_domains : List Str
  placeholder_users : List Str
  free_email_domains : List Str
  blockedUserPat : Str → Bool

/-- `looksLikeFile` from emailExtract.ts. -/
def looksLikeFile (lex : EmailLexicon) (email : Str) : Bool :=
  lex.blocked_extensions.any (fun ext => ext.isSuffixOf (lowerStr email))

/-- `isBlockedDomain` from emailExtract.ts: the domain itself, or any
subdomain of a blocked suffix. -/
def isBlockedDomain (lex : EmailLexicon) (domain : Str) : Bool :=
  let d := lowerStr domain
  lex.blocked_domain_suffixes.contains d ||
    lex.blocked_domain_suffixes.any (fun suf => ('.' :: suf).isSuffixOf d)

/-- `looksLikeMachineUser` from emailExtract.ts. -/
def looksLikeMachineUser (lex : EmailLexicon) (user : Str) : Bool :=
  lex.blockedUserPat user

/-- `hasOnlyAllowedEmailChars`: `/^[a-z0-9._+-]+$/` (note: no `%`). -/
def hasOnlyAllowedEmailChars (user : Str) : Bool :=
  !user.isEmpty && user.all (fun c =>
    isLowerCh c || isDigitCh c || c = '.' || c = '_' || c = '+' || c = '-')

/-- `looksHumanEnough` from emailExtract.ts.  The digit-ratio test
`digitCount / user.length > 0.4` is exact for the IEEE doubles involved
(numerators/denominators are bounded by 40 here), and equals
`5 * digitCount > 2 * user.length`. -/
def looksHumanEnough (lex : EmailLexicon) (user : Str) : Bool :=
  if lex.good_prefixes.contains user then true
  else if 40 < user.length then false
  else if user.isEmpty then false
  else if 2 * user.length < 5 * (user.filter isDigitCh).length then false
  else true

/-- punctuation class `[._+-]` of the `isValidUser` checks. -/
def punctCls (c : Char) : Bool := c = '.' || c = '_' || c = '+' || c = '-'

/-- `isValidUser` from emailExtract.ts. -/
def isValidUser (lex : EmailLexicon) (user : Str) : Bool :=
  match user with
  | [] => false
  | c0 :: _ =>
    hasOnlyAllowedEmailChars user &&
    !(punctCls c0 || punctCls (user.getLastD c0)) &&
    !(List.zip user user.tail).any (fun p => punctCls p.1 && punctCls p.2) &&
    !containsSub user (strOf "..") &&
    !looksLikeMachineUser lex user &&
    looksHumanEnough lex user

/-- `isValidDomain` from emailExtract.ts: must contain a dot, fully match
`/^[a-z0-9.-]+\.[a-z]{2,}$/` (equivalently: the maximal trailing run of
lowercase letters has length ≥ 2, is preceded by a `.`, the part before
that dot is nonempty, and every character is in `[a-z0-9.-]`), and must
not start or end with `.` or `-`. -/
def lowDomCls (c : Char) : Bool :=
  isLowerCh c || isDigitCh c || c = '.' || c = '-'

def isValidDomain (domain : Str) : Bool :=
  match domain with
  | [] => false
  | c0 :: _ =>
    domain.contains '.' &&
    (let revTail := domain.reverse.takeWhile isLowerCh
     2 ≤ revTail.length &&
       (match domain.reverse.drop revTail.length with
        | x :: pre => x = '.' && !pre.isEmpty && domain.all lowDomCls
        | [] => false)) &&
    !((c0 = '.' || c0 = '-') || (let cl := domain.getLastD c0; cl = '.' || cl = '-'))

/-- `isPlaceholderOrTest` from emailExtract.ts. -/
def isPlaceholderOrTest (lex : EmailLexicon) (user domain : Str) : Bool :=
  lex.reserved_domains.contains domain ||
  lex.bounce_fake_domains.contains domain ||
  (lex.placeholder_users.contains user && lex.free_email_domains.contains domain)

/-- `decontaminatePhoneSuffixUser` from emailExtract.ts. -/
def decontaminatePhoneSuffixUser (lex : EmailLexicon)
    (user domain normalizedText : Str) : Str :=
  let u := lowerStr user
  let d := lowerStr domain
  let digitPre := u.takeWhile isDigitCh
  let cand := u.drop digitPre.length
  -- `^(\d{3,})([a-z][a-z0-9._%+-]{1,})$`: the digit group is exactly the
  -- maximal leading digit run (the second group must start with a letter)
  if 3 ≤ digitPre.length && 2 ≤ cand.length &&
      (match cand with | c :: _ => isAlphaCh c | [] => false) &&
      cand.all localCls then
    if looksLikeMachineUser lex cand then u
    else if !looksHumanEnough lex cand then u
    else
      let candidateEmail := cand ++ '@' :: d
      if containsSub (lowerStr normalizedText) candidateEmail then cand
      else if 5 ≤ digitPre.length then cand
      else u
  else u

/-- The per-match body of the `while (EMAIL_REGEX.exec(...))` loop of
`extractEmailsFromText`. -/
def extractFold (lex : EmailLexicon) (normalized : Str) (out : List Str)
    (m : Str × Str) : List Str :=
  let user0 := lowerStr m.1
  let domain := lowerStr m.2
  if user0.isEmpty || domain.isEmpty then out
  else
    let user := decontaminatePhoneSuffixUser lex user0 domain normalized
    if !isValidUser lex user then out
    else if !isValidDomain domain then out
    else if isBlockedDomain lex domain then out
    else if isPlaceholderOrTest lex user domain then out
    else
      let email := user ++ '@' :: domain
      if looksLikeFile lex email then out
      else if out.contains email then out
      else out ++ [email]

/-- `extractEmailsFromText` from emailExtract.ts. -/
def extractEmailsFromText (lex : EmailLexicon) (text : Str) : List Str :=
  let normalized := normalizeEmailText text
  (emailScan normalized).foldl (extractFold lex normalized) []

/-! ## crawl.ts — page processing

cheerio's HTML parsing is a platform collaborator; a fetched page is
modelled by the data the crawl code reads off the parsed DOM:
  * `rawHtml`      — the raw html string,
  * `bodyText`     — `$("body").text()`,
  * `attrValues`   — the attribute values of the elements reached by the
                     `$("*")` scan (the source caps it at ~900 elements;
                     the cap is absorbed into this list),
  * `mailtoHrefs`  — the `href` values of `a[href^='mailto:']` anchors,
  * `anchors`      — the `a[href]` anchors with the fields
                     `collectScoredInternalLinks` reads: raw href, anchor
                     text, whether a parent is nav/footer/header-ish, and
                     the resolved absolute URL (`new URL(href, currentUrl)`
                     with hash stripped), `none` when URL parsing throws. -/

structure ResolvedUrl where
  protocol : Str
  hostname : Str
  normalized : Str
deriving DecidableEq

structure Anchor where
  hrefRaw : Str
  anchorText : Str
  inNavOrFooter : Bool
  resolved : Option ResolvedUrl
deriving DecidableEq

structure PageDoc where
  rawHtml : Str
  bodyText : Str
  attrValues : List Str
  mailtoHrefs : List Str
  anchors : List Anchor
deriving DecidableEq

def addAllNew (acc : List Str) (xs : List Str) : List Str :=
  xs.foldl (fun a e => if a.contains e then a else a ++ [e]) acc

/-- `extractEmailsFromHtmlBetter` from crawl.ts: union (insertion-ordered
set) of the four sources.  Note the `mailto:` harvest adds the address
directly after only `email && email.includes("@")`. -/
def extractEmailsFromHtmlBetter (lex : EmailLexicon) (page : PageDoc) : List Str :=
  let s1 := extractEmailsFromText lex (normalizeTextForEmailHarvest page.rawHtml)
  let s2 := extractEmailsFromText lex (normalizeTextForEmailHarvest page.bodyText)
  let fromAttrs := page.attrValues.foldl (fun acc v =>
    if v.isEmpty then acc
    else if !(containsSub v (strOf "@") || containsSub v (strOf "&#64") ||
              containsSub (lowerStr v) (strOf "(at)") ||
              containsSub (lowerStr v) (strOf "[at]")) then acc
    else addAllNew acc (extractEmailsFromText lex (normalizeTextForEmailHarvest v)))
    (addAllNew (addAllNew [] s1) s2)
  page.mailtoHrefs.foldl (fun acc href =>
    let stripped :=
      match dropLitCI (strOf "mailto:") href with
      | some r => r
      | none => href
    let email := lowerStr (stripped.takeWhile (fun c => c ≠ '?'))
    if !email.isEmpty && email.contains '@' then
      (if acc.contains email then acc else acc ++ [email])
    else acc) fromAttrs

/-- The crawl-side lexicon word lists (`crawl.tokens_*`, `crawl.url_hints`),
already lowercased as in the module initialisation of crawl.ts. -/
structure CrawlLexicon where
  tokens_contact : List Str
  tokens_legal : List Str
  tokens_about : List Str
  url_hints : List Str

def textIncludesAny (text : Str) (tokens : List Str) : Bool :=
  tokens.any (fun k => containsSub (lowerStr text) (lowerStr k))

/-- `scoreLink` from crawl.ts. -/
def scoreLink (clex : CrawlLexicon) (absUrl anchorText : Str)
    (inNavOrFooter : Bool) : Int :=
  let u := lowerStr absUrl
  let a := lowerStr anchorText
  let s0 : Int := 0
  let s1 := if (strOf "mailto:").isPrefixOf u then s0 + 100 else s0
  let s2 := s1 + 10 * ((clex.url_hints.filter (fun h => containsSub u h)).length : Int)
  let s3 := if textIncludesAny a clex.tokens_contact then s2 + 25 else s2
  let s4 := if textIncludesAny a clex.tokens_legal then s3 + 18 else s3
  let s5 := if textIncludesAny a clex.tokens_about then s4 + 10 else s4
  let s6 := if inNavOrFooter then s5 + 8 else s5
  let s7 := if containsSub u (strOf "/wp-content/") then s6 - 50 else s6
  let s8 := if containsSub u (strOf ".pdf") then s7 - 2 else s7
  if containsSub u (strOf "#") then s8 - 2 else s8

/-- insertion-ordered map update (JS `Map.set`): an existing key keeps its
insertion position (keys are unique in a `Map`, so the first occurrence is
the only one), a new key is appended. -/
def mapSet : List (Str × Int) → Str → Int → List (Str × Int)
  | [], k, v => [(k, v)]
  | p :: ps, k, v => if p.1 = k then (k, v) :: ps else p :: mapSet ps k v

/-- JS `map.get(k) ?? 0`. -/
def mapGetD : List (Str × Int) → Str → Int
  | [], _ => 0
  | p :: ps, k => if p.1 = k then p.2 else mapGetD ps k

/-- The per-anchor body of `collectScoredInternalLinks`. -/
def collectStep (clex : CrawlLexicon) (baseHost : Str)
    (scored : List (Str × Int)) (el : Anchor) : List (Str × Int) :=
  let hrefRaw := el.hrefRaw
  if hrefRaw.isEmpty then scored
  else
    let low := lowerStr hrefRaw
    if (strOf "#").isPrefixOf low then scored
    else if (strOf "javascript:").isPrefixOf low then scored
    else if (strOf "tel:").isPrefixOf low then scored
    else if (strOf "mailto:").isPrefixOf low then scored
    else
      match el.resolved with
      | none => scored
      | some abs =>
        if abs.protocol ≠ strOf "http:" && abs.protocol ≠ strOf "https:" then scored
        else if lowerStr abs.hostname ≠ baseHost then scored
        else
          let normalized := abs.normalized
          let s := scoreLink clex normalized el.anchorText el.inNavOrFooter
          if s ≤ 0 then scored
          else if s > mapGetD scored normalized then mapSet scored normalized s
          else scored

/-- `collectScoredInternalLinks` from crawl.ts, over the anchor list of a
parsed page. -/
def collectScoredInternalLinks (clex : CrawlLexicon) (page : PageDoc)
    (baseHost : Str) : List (Str × Int) :=
  page.anchors.foldl (collectStep clex baseHost) []

/-! ## crawl.ts — `rankEmails`

`[...new Set(emails.map(e => e.toLowerCase()))]` = first-occurrence dedup
of the lowercased list; `uniq.sort((a,b) => scoreEmail(b) - scoreEmail(a))`
is a stable descending sort (ES2019 `Array.prototype.sort` is stable). -/

def dedupFirst (xs : List Str) : List Str :=
  xs.foldl (fun acc e => if acc.contains e then acc else acc ++ [e]) []

/-- `e.split("@")[1] || ""`: the segment between the first and second `@`. -/
def emailDomOf (e : Str) : Str :=
  ((e.dropWhile (fun c => c ≠ '@')).drop 1).takeWhile (fun c => c ≠ '@')

/-- the business-inbox bonuses of `scoreEmail`. -/
def inboxBonus (e : Str) : Int :=
  (if (strOf "info@").isPrefixOf e then 8 else 0) +
  (if (strOf "hello@").isPrefixOf e then 7 else 0) +
  (if (strOf "contact@").isPrefixOf e then 7 else 0) +
  (if (strOf "office@").isPrefixOf e then 6 else 0) +
  (if (strOf "sales@").isPrefixOf e then 5 else 0) +
  (if (strOf "support@").isPrefixOf e then 4 else 0)

/-- the third-party-infrastructure penalties of `scoreEmail`. -/
def junkPenalty (d : Str) : Int :=
  (if containsSub d (strOf "sentry") then -20 else 0) +
  (if containsSub d (strOf "wix") then -10 else 0)

/-- `scoreEmail` inside `rankEmails` (the `host` argument is the
already-lowercased `baseHost`); the source accumulates the same summands
with sequential `if`s. -/
def scoreEmail (host : Str) (e : Str) : Int :=
  let d := lowerStr (emailDomOf e)
  (if d = host then 50 else 0) +
    (if ('.' :: host).isSuffixOf d then 40 else 0) +
    inboxBonus e + junkPenalty d

/-- stable insertion into a descending-sorted list: `x` goes before the
first element with a strictly smaller key. -/
def insertDesc (f : α → Int) (x : α) : List α → List α
  | [] => [x]
  | y :: ys => if f y ≤ f x then x :: y :: ys else y :: insertDesc f x ys

def sortDesc (f : α → Int) : List α → List α
  | [] => []
  | x :: xs => insertDesc f x (sortDesc f xs)

/-- `rankEmails` from crawl.ts. -/
def rankEmails (emails : List Str) (baseHost : Str) : List Str :=
  let host := lowerStr baseHost
  sortDesc (scoreEmail host) (dedupFirst (emails.map lowerStr))

/-! ## crawl.ts — the crawl orchestrator

`crawlForEmails` drives a sequential loop over a queue with an
enqueued-set and a visited-set.  The network and cheerio are platform
collaborators: `fetch` maps a URL to the crawl-visible outcome of
`fetchHtml` (`ok`, parsed page, final URL).  `sleeps` counts the
`await sleep(delayBetweenPagesMs)` calls and `fetchLog` the `fetchHtml`
calls, so that the budget/politeness claims can be stated. -/

structure FetchRes where
  ok : Bool
  html : Option PageDoc
  finalUrl : Option Str

structure CrawlCfg where
  maxPages : Nat
  topLinksToVisitRaw : Nat
  baseHost : Str
  clex : CrawlLexicon
  lex : EmailLexicon

/-- `Math.max(3, Math.min(opts?.topLinksToVisit ?? 8, 15))`. -/
def topLinksToVisit (cfg : CrawlCfg) : Nat := max 3 (min cfg.topLinksToVisitRaw 15)

structure CrawlState where
  queue : List Str
  enqueued : List Str
  visited : List Str
  fetchLog : List Str
  sleeps : Nat
  siteContextSet : Bool
  foundEmails : List Str
  evidenceUrls : List Str
  scoredLinks : List (Str × Int)

/-- `enqueue` from crawlForEmails. -/
def enqueue (st : CrawlState) (u : Str) (priority : Bool) : CrawlState :=
  if u.isEmpty then st
  else if st.enqueued.contains u then st
  else { st with
    enqueued := st.enqueued ++ [u]
    queue := if priority then u :: st.queue else st.queue ++ [u] }

/-- `mergeScores` from crawlForEmails: keep the maximum score per URL. -/
def mergeScores (scored next : List (Str × Int)) : List (Str × Int) :=
  next.foldl (fun m p => if mapGetD m p.1 < p.2 then mapSet m p.1 p.2 else m) scored

/-- `injectTopScoredLinks` from crawlForEmails. -/
def injectTopScoredLinks (cfg : CrawlCfg) (st : CrawlState) : CrawlState :=
  let candidates := st.scoredLinks.filter
    (fun p => 0 < p.2 && !st.visited.contains p.1 && !st.enqueued.contains p.1)
  let top := (sortDesc (fun p : Str × Int => p.2) candidates).take (topLinksToVisit cfg)
  top.foldl (fun s p => enqueue s p.1 true) st

/-- The loop guard `queue.length > 0 && visited.size < maxPages`,
negated. -/
def crawlStopped (cfg : CrawlCfg) (st : CrawlState) : Bool :=
  st.queue.isEmpty || cfg.maxPages ≤ st.visited.length

/-- The body of a successful fetch inside the `while` loop: site context,
email extraction + evidence, link scoring / merge / injection, delay. -/
def crawlProcessPage (cfg : CrawlCfg) (res : FetchRes) (page : PageDoc)
    (url : Str) (st2 : CrawlState) : CrawlState :=
  let st3 := { st2 with siteContextSet := true }
  let emailsHere := extractEmailsFromHtmlBetter cfg.lex page
  let st4 := { st3 with foundEmails := addAllNew st3.foundEmails emailsHere }
  let st5 :=
    if emailsHere.isEmpty then st4
    else { st4 with
      evidenceUrls := st4.evidenceUrls ++ [res.finalUrl.getD url] }
  let st6 :=
    if cfg.baseHost.isEmpty then st5
    else
      let links := collectScoredInternalLinks cfg.clex page cfg.baseHost
      injectTopScoredLinks cfg
        { st5 with scoredLinks := mergeScores st5.scoredLinks links }
  { st6 with sleeps := st6.sleeps + 1 }

/-- One iteration of the `while` loop of crawlForEmails. -/
def crawlStep (cfg : CrawlCfg) (fetch : Str → FetchRes) (st : CrawlState) :
    CrawlState :=
  match st.queue with
  | [] => st
  | url :: qrest =>
    let st1 := { st with queue := qrest }
    if st1.visited.contains url then st1
    else
      let st2 := { st1 with
        visited := st1.visited ++ [url]
        fetchLog := st1.fetchLog ++ [url] }
      let res := fetch url
      match res.html with
      | none => { st2 with sleeps := st2.sleeps + 1 }
      | some page =>
        if !res.ok then { st2 with sleeps := st2.sleeps + 1 }
        else crawlProcessPage cfg res page url st2

/-- The fuelled loop; `crawlMeasure` fuel always suffices (theorem for
claim C10). -/
def crawlRun (cfg : CrawlCfg) (fetch : Str → FetchRes) : Nat → CrawlState → CrawlState
  | 0, st => st
  | n + 1, st =>
    if crawlStopped cfg st then st
    else crawlRun cfg fetch n (crawlStep cfg fetch st)

def crawlMeasure (cfg : CrawlCfg) (st : CrawlState) : Nat :=
  st.queue.length + (cfg.maxPages - st.visited.length) * topLinksToVisit cfg

/-- The seeding phase of crawlForEmails: homepage with priority, then the
candidate paths without. -/
def crawlInit (base : Str) (seeded : List Str) : CrawlState :=
  let st0 : CrawlState := ⟨[], [], [], [], 0, false, [], [], []⟩
  seeded.foldl (fun s u => enqueue s u false) (enqueue st0 base true)

structure CrawlOutcome where
  website : Str
  emails : List Str
  evidenceUrls : List Str

/-- The return value construction of crawlForEmails. -/
def crawlFinish (cfg : CrawlCfg) (base : Str) (st : CrawlState) : CrawlOutcome :=
  { website := base
    emails :=
      if cfg.baseHost.isEmpty then st.foundEmails
      else rankEmails st.foundEmails cfg.baseHost
    evidenceUrls := st.evidenceUrls }

/-- Whole-crawl driver (canonicalisation and seeding are passed in as the
already-computed `base`/`seeded`, cf. `resolveCanonicalBaseUrl` /
`buildCandidatePaths` below). -/
def crawlForEmails (cfg : CrawlCfg) (fetch : Str → FetchRes)
    (base : Str) (seeded : List Str) : CrawlOutcome :=
  let st0 := crawlInit base seeded
  crawlFinish cfg base (crawlRun cfg fetch (crawlMeasure cfg st0) st0)

/-! ## urls.ts — canonicalisation

`new URL(...)` is a platform primitive; `jsUrlParse` models the WHATWG
parser for the URL shapes this code produces and consumes: an `http(s)`
scheme (case-insensitive), an authority terminated by `/`, `?`, `#` or
`\`, the host after the last `@` of the authority and before an optional
all-digit port, hosts lowercased, `%` and whitespace rejected in hosts.
Non-http(s) schemes are rejected by the model; `resolveCanonicalBaseUrl`
treats them identically to a parse failure (its protocol guard), so this
does not change its observable behaviour. -/

def startsWithCI (p s : Str) : Bool := (dropLitCI p s).isSome

structure JsUrl where
  protocol : Str
  hostname : Str
  port : Str
deriving DecidableEq

def badHostChar (c : Char) : Bool :=
  isWsCh c || c = '@' || c = '[' || c = ']' || c = '%' || c = '#' ||
    c = '/' || c = '?' || c = ':'

def jsUrlParse (s : Str) : Option JsUrl :=
  let parseRest (proto : Str) (rest : Str) : Option JsUrl :=
    let authority := rest.takeWhile
      (fun c => !(c = '/' || c = '?' || c = '#' || c = '\\'))
    let hostPort := (authority.reverse.takeWhile (fun c => c ≠ '@')).reverse
    let host := hostPort.takeWhile (fun c => c ≠ ':')
    let port := (hostPort.drop host.length).drop 1
    if host.isEmpty then none
    else if host.any badHostChar then none
    else if !port.all isDigitCh then none
    else some ⟨proto, lowerStr host, port⟩
  match dropLitCI (strOf "https://") s with
  | some rest => parseRest (strOf "https:") rest
  | none =>
    match dropLitCI (strOf "http://") s with
    | some rest => parseRest (strOf "http:") rest
    | none => none

/-- `u.origin` for the parsed URL. -/
def jsUrlOrigin (u : JsUrl) : Str :=
  let defPort :=
    (u.protocol = strOf "https:" && u.port = strOf "443") ||
    (u.protocol = strOf "http:" && u.port = strOf "80") ||
    u.port.isEmpty
  u.protocol ++ strOf "//" ++ u.hostname ++
    (if defPort then [] else ':' :: u.port)

def trimStr (s : Str) : Str :=
  ((s.dropWhile isWsCh).reverse.dropWhile isWsCh).reverse

/-- `normalizeBaseUrl` from urls.ts. -/
def normalizeBaseUrl (input : Str) : Str :=
  let s := trimStr input
  let s :=
    if startsWithCI (strOf "https://") s || startsWithCI (strOf "http://") s
    then s else strOf "https://" ++ s
  (s.reverse.dropWhile (fun c => c = '/')).reverse

/-- the trailing-punctuation class `[\s\]\)\}\>,;.!?:]+$` of
`extractHostnameCandidate`. -/
def trailPunct (c : Char) : Bool :=
  isWsCh c || c = ']' || c = ')' || c = '}' || c = '>' || c = ',' ||
    c = ';' || c = '.' || c = '!' || c = '?' || c = ':'

/-- `extractHostnameCandidate` from urls.ts (returns `[]`, i.e. `""`, on
failure, as the source does). -/
def extractHostnameCandidate (input : Str) : Str :=
  let s := trimStr input
  if s.isEmpty then []
  else
    let s := (s.reverse.dropWhile trailPunct).reverse
    let parseable :=
      if startsWithCI (strOf "https://") s || startsWithCI (strOf "http://") s
      then s else strOf "https://" ++ s
    match jsUrlParse parseable with
    | none => []
    | some u =>
      let host := u.hostname
      let host := if (strOf "www.").isPrefixOf host then host.drop 4 else host
      if host.getLastD ' ' = '.' then host.dropLast else host

/-- `buildOriginCandidates` from urls.ts. -/
def buildOriginCandidates (host : Str) : List Str :=
  let h := lowerStr (trimStr host)
  if h.isEmpty then []
  else
    let withWww := if (strOf "www.").isPrefixOf h then h else strOf "www." ++ h
    (strOf "https://" ++ h) ::
      ((if withWww ≠ h then [strOf "https://" ++ withWww] else []) ++
       [strOf "http://" ++ h] ++
       (if withWww ≠ h then [strOf "http://" ++ withWww] else []))

structure ProbeRes where
  ok : Bool
  finalUrl : Option Str
deriving DecidableEq

/-- The probe loop of `resolveCanonicalBaseUrl`: first candidate with a
successful probe whose redirect-resolved final URL is http(s) wins. -/
def resolveLoop (prober : Str → ProbeRes) : List Str → Option Str
  | [] => none
  | origin :: rest =>
    let r := prober (origin ++ strOf "/")
    match r.finalUrl with
    | some fu =>
      if r.ok then
        match jsUrlParse fu with
        | some u =>
          if u.protocol = strOf "http:" || u.protocol = strOf "https:" then
            some (jsUrlOrigin u)
          else resolveLoop prober rest
        | none => resolveLoop prober rest
      else resolveLoop prober rest
    | none => resolveLoop prober rest

/-- `resolveCanonicalBaseUrl` from urls.ts, with the network probe as a
parameter (the probe timeout clamp `max(1500, min(t, 15000))` is carried
by the caller and does not affect which URLs are probed). -/
def resolveCanonicalBaseUrl (prober : Str → ProbeRes) (input : Str) :
    Option Str :=
  let host := extractHostnameCandidate input
  if host.isEmpty then none
  else
    match resolveLoop prober (buildOriginCandidates host) with
    | some origin => some origin
    | none =>
      match jsUrlParse (strOf "https://" ++ host) with
      | some u => some (jsUrlOrigin u)
      | none => none

/-- The hardcoded fallback path list of `buildCandidatePaths`. -/
def fallbackCandidatePaths : List Str :=
  [strOf "", strOf "/impressum", strOf "/imprint", strOf "/legal",
   strOf "/privacy", strOf "/datenschutz", strOf "/contact",
   strOf "/contact-us", strOf "/contacts", strOf "/kontakt",
   strOf "/get-in-touch", strOf "/info", strOf "/about", strOf "/about-us",
   strOf "/team", strOf "/studio", strOf "/company", strOf "/who-we-are",
   strOf "/services", strOf "/work", strOf "/projects", strOf "/portfolio"]

/-- `buildCandidatePaths` from urls.ts (`candidatePaths` is the lexicon's
`urls.candidate_paths`). -/
def buildCandidatePaths (candidatePaths : List Str) (base : Str) : List Str :=
  let paths := if candidatePaths.isEmpty then fallbackCandidatePaths
               else candidatePaths
  paths.map (fun p => base ++ p)

/-! ## fetch.ts — `fetchHtml`

The transport (`fetch` with an abort signal) either yields a response or
raises; `fetchHtml` catches every raised error and returns `{ok:false}`.
The network outcome is modelled as `Except Str HttpResp`. -/

structure HttpResp where
  status : Nat
  contentType : Str
  bodyText : Str
  url : Str
deriving DecidableEq

structure FetchHtmlRes where
  ok : Bool
  status : Option Nat
  html : Option Str
  finalUrl : Option Str
  error : Option Str
deriving DecidableEq

/-- `fetchHtml` from fetch.ts: a total function — network errors and
timeouts become `{ok:false, error}`, non-HTML content types become
`{ok:false, status, error}`; otherwise `{ok: res.ok, status, html,
finalUrl}` with `res.ok ⟺ 200 ≤ status ≤ 299`. -/
def fetchHtml (net : Except Str HttpResp) : FetchHtmlRes :=
  match net with
  | .error e => ⟨false, none, none, none, some e⟩
  | .ok res =>
    if !(containsSub res.contentType (strOf "text/html") ||
         containsSub res.contentType (strOf "application/xhtml")) then
      ⟨false, some res.status, none, none, some (strOf "Not HTML: " ++ res.contentType)⟩
    else
      ⟨decide (200 ≤ res.status ∧ res.status ≤ 299), some res.status,
        some res.bodyText, some res.url, none⟩

/-! # Theorems

## stable descending sort (shared by `rankEmails` and
`injectTopScoredLinks`) -/

theorem insertDesc_perm (f : α → Int) (x : α) (l : List α) :
    (insertDesc f x l).Perm (x :: l) := by
  induction l with
  | nil => simp [insertDesc]
  | cons y ys ih =>
    by_cases h : f y ≤ f x
    · simp [insertDesc, h]
    · simp only [insertDesc, h, if_false]
      exact (ih.cons y).trans (List.Perm.swap x y ys)

theorem sortDesc_perm (f : α → Int) (l : List α) : (sortDesc f l).Perm l := by
  induction l with
  | nil => simp [sortDesc]
  | cons x xs ih => exact (insertDesc_perm f x (sortDesc f xs)).trans (ih.cons x)

theorem mem_insertDesc {f : α → Int} {x z : α} {l : List α}
    (h : z ∈ insertDesc f x l) : z = x ∨ z ∈ l := by
  have := (insertDesc_perm f x l).mem_iff.mp h
  simpa using this

theorem insertDesc_pairwise {f : α → Int} {x : α} {l : List α}
    (h : List.Pairwise (fun a b => f b ≤ f a) l) :
    List.Pairwise (fun a b => f b ≤ f a) (insertDesc f x l) := by
  induction l with
  | nil => simp [insertDesc]
  | cons y ys ih =>
    rcases List.pairwise_cons.mp h with ⟨hy, hys⟩
    by_cases hle : f y ≤ f x
    · simp only [insertDesc, hle, if_true]
      refine List.pairwise_cons.mpr ⟨?_, h⟩
      intro z hz
      rcases List.mem_cons.mp hz with rfl | hz
      · exact hle
      · exact le_trans (hy z hz) hle
    · simp only [insertDesc, hle, if_false]
      refine List.pairwise_cons.mpr ⟨?_, ih hys⟩
      intro z hz
      rcases mem_insertDesc hz with rfl | hz
      · exact le_of_not_le hle
      · exact hy z hz

theorem sortDesc_pairwise (f : α → Int) (l : List α) :
    List.Pairwise (fun a b => f b ≤ f a) (sortDesc f l) := by
  induction l with
  | nil => simp [sortDesc]
  | cons x xs ih => exact insertDesc_pairwise ih

theorem insertDesc_filter_eq (f : α → Int) (x : α) (l : List α) :
    (insertDesc f x l).filter (fun a => f a == f x) =
      x :: l.filter (fun a => f a == f x) := by
  induction l with
  | nil => simp [insertDesc]
  | cons y ys ih =>
    by_cases hle : f y ≤ f x
    · simp [insertDesc, hle]
    · have hne : ¬(f y == f x) = true := by
        simp only [beq_iff_eq]
        intro heq
        exact hle (le_of_eq heq)
      simp only [insertDesc, hle, if_false, List.filter_cons, hne, if_false, ih]
      simp [List.filter_cons, hne]

theorem insertDesc_filter_ne (f : α → Int) (k : Int) (x : α) (l : List α)
    (hx : f x ≠ k) :
    (insertDesc f x l).filter (fun a => f a == k) =
      l.filter (fun a => f a == k) := by
  have hxb : ¬(f x == k) = true := by simpa using hx
  induction l with
  | nil => simp [insertDesc, hxb]
  | cons y ys ih =>
    by_cases hle : f y ≤ f x
    · simp [insertDesc, hle, List.filter_cons, hxb]
    · simp only [insertDesc, hle, if_false, List.filter_cons]
      by_cases hy : (f y == k) = true
      · simp [hy, ih]
      · simp [hy, ih]

theorem sortDesc_filter (f : α → Int) (k : Int) (l : List α) :
    (sortDesc f l).filter (fun a => f a == k) =
      l.filter (fun a => f a == k) := by
  induction l with
  | nil => simp [sortDesc]
  | cons x xs ih =>
    by_cases hx : f x = k
    · subst hx
      rw [sortDesc, insertDesc_filter_eq, ih, List.filter_cons]
      simp
    · rw [sortDesc, insertDesc_filter_ne f k x _ hx, ih, List.filter_cons]
      simp [hx]

/-! ## Claim C5 — email ranking -/

theorem not_dotHost_suffix_self (host : Str) : ¬ ('.' :: host) <:+ host := by
  intro h
  have := h.length_le
  simp at this

/-- C5: `rankEmails` scores +50 for an exact base-host domain and +40 for a
proper subdomain (never both), sorts descending by score, breaks ties by
discovery order (stable), returns the full deduplicated list untruncated,
and in particular ranks `info@basehost.com` above `random@other.com` for
`baseHost = "basehost.com"`. -/
theorem C5_rankEmails :
    (∀ host e, lowerStr (emailDomOf e) = host →
        scoreEmail host e = 50 + inboxBonus e + junkPenalty (lowerStr (emailDomOf e))) ∧
    (∀ host e, ('.' :: host).isSuffixOf (lowerStr (emailDomOf e)) = true →
        scoreEmail host e = 40 + inboxBonus e + junkPenalty (lowerStr (emailDomOf e))) ∧
    (∀ emails baseHost,
        (rankEmails emails baseHost).Perm (dedupFirst (emails.map lowerStr)) ∧
        (rankEmails emails baseHost).length
            = (dedupFirst (emails.map lowerStr)).length ∧
        List.Pairwise
          (fun a b => scoreEmail (lowerStr baseHost) b ≤ scoreEmail (lowerStr baseHost) a)
          (rankEmails emails baseHost) ∧
        (∀ k, (rankEmails emails baseHost).filter
                (fun e => scoreEmail (lowerStr baseHost) e == k)
            = (dedupFirst (emails.map lowerStr)).filter
                (fun e => scoreEmail (lowerStr baseHost) e == k))) ∧
    rankEmails [strOf "random@other.com", strOf "info@basehost.com"]
        (strOf "basehost.com")
      = [strOf "info@basehost.com", strOf "random@other.com"] := by
  refine ⟨?_, ?_, ?_, by decide⟩
  · intro host e hd
    have hns : ¬ (('.' :: host).isSuffixOf host = true) := by
      rw [List.isSuffixOf_iff_suffix]
      exact not_dotHost_suffix_self host
    unfold scoreEmail
    simp only [hd, if_pos rfl, hns, if_false]
    simp
  · intro host e hs
    have hne : lowerStr (emailDomOf e) ≠ host := by
      intro heq
      rw [List.isSuffixOf_iff_suffix, heq] at hs
      exact not_dotHost_suffix_self host hs
    unfold scoreEmail
    simp only [hne, if_false, hs, if_true]
    simp
  · intro emails baseHost
    refine ⟨?_, ?_, ?_, ?_⟩
    · exact sortDesc_perm _ _
    · exact (sortDesc_perm _ _).length_eq
    · exact sortDesc_pairwise _ _
    · intro k
      exact sortDesc_filter _ k _

/-- Witness for C5 at concrete inputs. -/
theorem C5_rankEmails_witness :
    scoreEmail (strOf "basehost.com") (strOf "info@basehost.com")
        = 50 + inboxBonus (strOf "info@basehost.com")
            + junkPenalty (lowerStr (emailDomOf (strOf "info@basehost.com"))) ∧
    scoreEmail (strOf "basehost.com") (strOf "x@sub.basehost.com")
        = 40 + inboxBonus (strOf "x@sub.basehost.com")
            + junkPenalty (lowerStr (emailDomOf (strOf "x@sub.basehost.com"))) := by
  constructor
  · exact C5_rankEmails.1 (strOf "basehost.com") (strOf "info@basehost.com") (by decide)
  · exact C5_rankEmails.2.1 (strOf "basehost.com") (strOf "x@sub.basehost.com") (by decide)

/-! ## map/merge lemmas for the crawl score map -/

theorem mapSet_get_eq (m : List (Str × Int)) (k : Str) (v : Int) :
    mapGetD (mapSet m k v) k = v := by
  induction m with
  | nil => simp [mapSet, mapGetD]
  | cons p ps ih =>
    by_cases hp : p.1 = k
    · simp [mapSet, mapGetD, hp]
    · simp [mapSet, mapGetD, hp, ih]

theorem mapSet_get_ne (m : List (Str × Int)) (k u : Str) (v : Int)
    (h : u ≠ k) : mapGetD (mapSet m k v) u = mapGetD m u := by
  have hku : ¬ (k = u) := fun hh => h hh.symm
  induction m with
  | nil => simp [mapSet, mapGetD, hku]
  | cons p ps ih =>
    by_cases hp : p.1 = k
    · simp only [mapSet, hp, if_true, mapGetD]
      rw [if_neg (by simpa using hku), if_neg (by simpa [hp] using hku)]
    · simp only [mapSet, hp, if_false, mapGetD]
      by_cases hpu : p.1 = u
      · simp [hpu]
      · simp [hpu, ih]

theorem mem_mapSet {m : List (Str × Int)} {k : Str} {v : Int} {p : Str × Int}
    (h : p ∈ mapSet m k v) : p ∈ m ∨ p = (k, v) := by
  induction m with
  | nil => simpa [mapSet] using h
  | cons q qs ih =>
    by_cases hq : q.1 = k
    · simp only [mapSet, hq, if_true, List.mem_cons] at h
      rcases h with rfl | h
      · exact Or.inr rfl
      · exact Or.inl (List.mem_cons_of_mem q h)
    · simp only [mapSet, hq, if_false, List.mem_cons] at h
      rcases h with rfl | h
      · exact Or.inl (List.mem_cons_self p qs)
      · rcases ih h with h | h
        · exact Or.inl (List.mem_cons_of_mem q h)
        · exact Or.inr h

theorem mapGetD_nonneg {m : List (Str × Int)} (hm : ∀ p ∈ m, 0 < p.2)
    (u : Str) : 0 ≤ mapGetD m u := by
  induction m with
  | nil => simp [mapGetD]
  | cons p ps ih =>
    simp only [mapGetD]
    by_cases hp : p.1 = u
    · simp only [hp, if_true]
      exact le_of_lt (hm p (List.mem_cons_self p ps))
    · simp only [hp, if_false]
      exact ih (fun q hq => hm q (List.mem_cons_of_mem p hq))

theorem mergeScores_get_le (m next : List (Str × Int)) (u : Str) :
    mapGetD m u ≤ mapGetD (mergeScores m next) u := by
  unfold mergeScores
  induction next generalizing m with
  | nil => simp
  | cons p ps ih =>
    simp only [List.foldl_cons]
    by_cases hlt : mapGetD m p.1 < p.2
    · simp only [hlt, if_true]
      refine le_trans ?_ (ih (mapSet m p.1 p.2))
      by_cases hu : u = p.1
      · subst hu
        rw [mapSet_get_eq]
        exact le_of_lt hlt
      · rw [mapSet_get_ne _ _ _ _ hu]
    · simp only [hlt, if_false]
      exact ih m

theorem mergeScores_pos {m : List (Str × Int)} (next : List (Str × Int))
    (hm : ∀ p ∈ m, 0 < p.2) : ∀ p ∈ mergeScores m next, 0 < p.2 := by
  unfold mergeScores
  induction next generalizing m with
  | nil => simpa using hm
  | cons q qs ih =>
    simp only [List.foldl_cons]
    by_cases hlt : mapGetD m q.1 < q.2
    · simp only [hlt, if_true]
      refine ih ?_
      intro p hp
      rcases mem_mapSet hp with hp | rfl
      · exact hm p hp
      · exact lt_of_le_of_lt (mapGetD_nonneg hm q.1) hlt
    · simp only [hlt, if_false]
      exact ih hm

/-! ## crawl state lemmas -/

theorem enqueue_visited (st : CrawlState) (u : Str) (p : Bool) :
    (enqueue st u p).visited = st.visited := by
  unfold enqueue
  split
  · rfl
  · split <;> rfl

theorem enqueue_fetchLog (st : CrawlState) (u : Str) (p : Bool) :
    (enqueue st u p).fetchLog = st.fetchLog := by
  unfold enqueue
  split
  · rfl
  · split <;> rfl

theorem enqueue_sleeps (st : CrawlState) (u : Str) (p : Bool) :
    (enqueue st u p).sleeps = st.sleeps := by
  unfold enqueue
  split
  · rfl
  · split <;> rfl

theorem enqueue_foundEmails (st : CrawlState) (u : Str) (p : Bool) :
    (enqueue st u p).foundEmails = st.foundEmails := by
  unfold enqueue
  split
  · rfl
  · split <;> rfl

theorem enqueue_scoredLinks (st : CrawlState) (u : Str) (p : Bool) :
    (enqueue st u p).scoredLinks = st.scoredLinks := by
  unfold enqueue
  split
  · rfl
  · split <;> rfl

theorem enqueue_evidence (st : CrawlState) (u : Str) (p : Bool) :
    (enqueue st u p).evidenceUrls = st.evidenceUrls := by
  unfold enqueue
  split
  · rfl
  · split <;> rfl

theorem enqueue_queue_len (st : CrawlState) (u : Str) (p : Bool) :
    (enqueue st u p).queue.length ≤ st.queue.length + 1 := by
  unfold enqueue
  split
  · omega
  · split
    · omega
    · cases p <;> simp

theorem foldl_proj_eq {β γ : Type} (proj : CrawlState → γ)
    (g : CrawlState → β → CrawlState) (hg : ∀ s b, proj (g s b) = proj s) :
    ∀ (l : List β) (st : CrawlState), proj (l.foldl g st) = proj st := by
  intro l
  induction l with
  | nil => intro st; rfl
  | cons b bs ih => intro st; rw [List.foldl_cons, ih, hg]

theorem foldl_enqueue_queue_len {β} (f : β → Str) (pr : β → Bool) :
    ∀ (l : List β) (st : CrawlState),
      ((l.foldl (fun s b => enqueue s (f b) (pr b)) st).queue.length
        ≤ st.queue.length + l.length) := by
  intro l
  induction l with
  | nil => intro st; simp
  | cons b bs ih =>
    intro st
    calc ((bs.foldl (fun s b => enqueue s (f b) (pr b))
            (enqueue st (f b) (pr b))).queue.length)
        ≤ (enqueue st (f b) (pr b)).queue.length + bs.length := ih _
      _ ≤ st.queue.length + 1 + bs.length := by
            have := enqueue_queue_len st (f b) (pr b); omega
      _ = st.queue.length + (b :: bs).length := by simp; omega

theorem inject_visited (cfg : CrawlCfg) (st : CrawlState) :
    (injectTopScoredLinks cfg st).visited = st.visited := by
  unfold injectTopScoredLinks
  exact foldl_proj_eq (fun s => s.visited) _ (fun s (b : Str × Int) => enqueue_visited s b.1 true) _ st

theorem inject_fetchLog (cfg : CrawlCfg) (st : CrawlState) :
    (injectTopScoredLinks cfg st).fetchLog = st.fetchLog := by
  unfold injectTopScoredLinks
  exact foldl_proj_eq (fun s => s.fetchLog) _ (fun s (b : Str × Int) => enqueue_fetchLog s b.1 true) _ st

theorem inject_sleeps (cfg : CrawlCfg) (st : CrawlState) :
    (injectTopScoredLinks cfg st).sleeps = st.sleeps := by
  unfold injectTopScoredLinks
  exact foldl_proj_eq (fun s => s.sleeps) _ (fun s (b : Str × Int) => enqueue_sleeps s b.1 true) _ st

theorem inject_foundEmails (cfg : CrawlCfg) (st : CrawlState) :
    (injectTopScoredLinks cfg st).foundEmails = st.foundEmails := by
  unfold injectTopScoredLinks
  exact foldl_proj_eq (fun s => s.foundEmails) _ (fun s (b : Str × Int) => enqueue_foundEmails s b.1 true) _ st

theorem inject_scoredLinks (cfg : CrawlCfg) (st : CrawlState) :
    (injectTopScoredLinks cfg st).scoredLinks = st.scoredLinks := by
  unfold injectTopScoredLinks
  exact foldl_proj_eq (fun s => s.scoredLinks) _ (fun s (b : Str × Int) => enqueue_scoredLinks s b.1 true) _ st

theorem inject_evidence (cfg : CrawlCfg) (st : CrawlState) :
    (injectTopScoredLinks cfg st).evidenceUrls = st.evidenceUrls := by
  unfold injectTopScoredLinks
  exact foldl_proj_eq (fun s => s.evidenceUrls) _ (fun s (b : Str × Int) => enqueue_evidence s b.1 true) _ st

theorem inject_queue_len (cfg : CrawlCfg) (st : CrawlState) :
    (injectTopScoredLinks cfg st).queue.length
      ≤ st.queue.length + topLinksToVisit cfg := by
  unfold injectTopScoredLinks
  refine le_trans (foldl_enqueue_queue_len (fun p : Str × Int => p.1)
    (fun _ => true) _ st) ?_
  have : ((sortDesc (fun p : Str × Int => p.2)
      (st.scoredLinks.filter
        (fun p => 0 < p.2 && !st.visited.contains p.1 && !st.enqueued.contains p.1))).take
        (topLinksToVisit cfg)).length ≤ topLinksToVisit cfg := by
    simpa using List.length_take_le (topLinksToVisit cfg) _
  omega

theorem processPage_visited (cfg : CrawlCfg) (res : FetchRes) (page : PageDoc)
    (url : Str) (st2 : CrawlState) :
    (crawlProcessPage cfg res page url st2).visited = st2.visited := by
  unfold crawlProcessPage
  simp only []
  split <;> split <;> simp [inject_visited]

theorem processPage_fetchLog (cfg : CrawlCfg) (res : FetchRes) (page : PageDoc)
    (url : Str) (st2 : CrawlState) :
    (crawlProcessPage cfg res page url st2).fetchLog = st2.fetchLog := by
  unfold crawlProcessPage
  simp only []
  split <;> split <;> simp [inject_fetchLog]

theorem processPage_sleeps (cfg : CrawlCfg) (res : FetchRes) (page : PageDoc)
    (url : Str) (st2 : CrawlState) :
    (crawlProcessPage cfg res page url st2).sleeps = st2.sleeps + 1 := by
  unfold crawlProcessPage
  simp only []
  split <;> split <;> simp [inject_sleeps]

theorem processPage_evidence_ext (cfg : CrawlCfg) (res : FetchRes)
    (page : PageDoc) (url : Str) (st2 : CrawlState) :
    (crawlProcessPage cfg res page url st2).evidenceUrls = st2.evidenceUrls ∨
    (crawlProcessPage cfg res page url st2).evidenceUrls
      = st2.evidenceUrls ++ [res.finalUrl.getD url] := by
  unfold crawlProcessPage
  simp only []
  split <;> split <;> simp [inject_evidence]

theorem processPage_queue_len (cfg : CrawlCfg) (res : FetchRes) (page : PageDoc)
    (url : Str) (st2 : CrawlState) :
    (crawlProcessPage cfg res page url st2).queue.length
      ≤ st2.queue.length + topLinksToVisit cfg := by
  unfold crawlProcessPage
  simp only []
  split <;> split
  · simp
  · simp
  · simpa using inject_queue_len cfg _
  · simpa using inject_queue_len cfg _

theorem processPage_scored_mono (cfg : CrawlCfg) (res : FetchRes)
    (page : PageDoc) (url : Str) (st2 : CrawlState) (u : Str) :
    mapGetD st2.scoredLinks u
      ≤ mapGetD (crawlProcessPage cfg res page url st2).scoredLinks u := by
  unfold crawlProcessPage
  simp only []
  split <;> split
  · simp
  · simp
  · rw [inject_scoredLinks]
    simpa using mergeScores_get_le st2.scoredLinks _ u
  · rw [inject_scoredLinks]
    simpa using mergeScores_get_le st2.scoredLinks _ u

theorem processPage_scored_pos (cfg : CrawlCfg) (res : FetchRes)
    (page : PageDoc) (url : Str) (st2 : CrawlState)
    (hm : ∀ p ∈ st2.scoredLinks, 0 < p.2) :
    ∀ p ∈ (crawlProcessPage cfg res page url st2).scoredLinks, 0 < p.2 := by
  unfold crawlProcessPage
  simp only []
  split <;> split
  · simpa using hm
  · simpa using hm
  · rw [inject_scoredLinks]
    simpa using mergeScores_pos _ hm
  · rw [inject_scoredLinks]
    simpa using mergeScores_pos _ hm

theorem crawlStep_nil {cfg : CrawlCfg} {fetch : Str → FetchRes}
    {st : CrawlState} (h : st.queue = []) : crawlStep cfg fetch st = st := by
  unfold crawlStep
  rw [h]

theorem crawlStep_stale {cfg : CrawlCfg} {fetch : Str → FetchRes}
    {st : CrawlState} {url : Str} {qrest : List Str}
    (hq : st.queue = url :: qrest) (hv : st.visited.contains url = true) :
    crawlStep cfg fetch st = { st with queue := qrest } := by
  unfold crawlStep
  rw [hq]
  simp only [hv, if_true]

/-- A fresh dequeue whose fetch fails (network error, timeout or non-HTML
content): the URL still counts toward the visited budget, the inter-page
delay is still slept, and nothing else changes. -/
theorem crawlStep_failed {cfg : CrawlCfg} {fetch : Str → FetchRes}
    {st : CrawlState} {url : Str} {qrest : List Str}
    (hq : st.queue = url :: qrest) (hv : st.visited.contains url = false)
    (hfail : (fetch url).html = none ∨ (fetch url).ok = false) :
    crawlStep cfg fetch st = { st with
      queue := qrest
      visited := st.visited ++ [url]
      fetchLog := st.fetchLog ++ [url]
      sleeps := st.sleeps + 1 } := by
  unfold crawlStep
  rw [hq]
  simp only [hv, Bool.false_eq_true, if_false]
  rcases hres : (fetch url).html with _ | page
  · rfl
  · rcases hfail with hfail | hfail
    · rw [hres] at hfail
      exact absurd hfail (by simp)
    · simp [hfail]

/-- A fresh dequeue whose fetch succeeds reduces to `crawlProcessPage`. -/
theorem crawlStep_ok {cfg : CrawlCfg} {fetch : Str → FetchRes}
    {st : CrawlState} {url : Str} {qrest : List Str} {page : PageDoc}
    (hq : st.queue = url :: qrest) (hv : st.visited.contains url = false)
    (hres : (fetch url).html = some page) (hok : (fetch url).ok = true) :
    crawlStep cfg fetch st = crawlProcessPage cfg (fetch url) page url
      { st with
        queue := qrest
        visited := st.visited ++ [url]
        fetchLog := st.fetchLog ++ [url] } := by
  unfold crawlStep
  rw [hq]
  simp only [hv, Bool.false_eq_true, if_false]
  rw [hres]
  simp [hok]

/-- A fresh dequeue: whatever the fetch returns, exactly this URL is
appended to `visited` and `fetchLog`, exactly one delay is slept, the queue
grows by at most `topLinksToVisit`, and the score map only grows
pointwise. -/
theorem crawlStep_fresh {cfg : CrawlCfg} {fetch : Str → FetchRes}
    {st : CrawlState} {url : Str} {qrest : List Str}
    (hq : st.queue = url :: qrest) (hv : st.visited.contains url = false) :
    (crawlStep cfg fetch st).visited = st.visited ++ [url] ∧
    (crawlStep cfg fetch st).fetchLog = st.fetchLog ++ [url] ∧
    (crawlStep cfg fetch st).sleeps = st.sleeps + 1 ∧
    (crawlStep cfg fetch st).queue.length
      ≤ qrest.length + topLinksToVisit cfg ∧
    (∀ u, mapGetD st.scoredLinks u
      ≤ mapGetD (crawlStep cfg fetch st).scoredLinks u) ∧
    ((∀ p ∈ st.scoredLinks, 0 < p.2) →
      ∀ p ∈ (crawlStep cfg fetch st).scoredLinks, 0 < p.2) := by
  by_cases hsucc : (∃ page, (fetch url).html = some page) ∧ (fetch url).ok = true
  · rcases hsucc with ⟨⟨page, hres⟩, hok⟩
    rw [crawlStep_ok hq hv hres hok]
    set st2 : CrawlState := { st with
      queue := qrest
      visited := st.visited ++ [url]
      fetchLog := st.fetchLog ++ [url] } with hst2
    refine ⟨?_, ?_, ?_, ?_, ?_, ?_⟩
    · rw [processPage_visited]
    · rw [processPage_fetchLog]
    · rw [processPage_sleeps]
    · simpa using processPage_queue_len cfg _ page url st2
    · intro u
      simpa using processPage_scored_mono cfg _ page url st2 u
    · intro hm
      exact processPage_scored_pos cfg _ page url st2 (by simpa using hm)
  · have hfail : (fetch url).html = none ∨ (fetch url).ok = false := by
      by_cases hh : (fetch url).html = none
      · exact Or.inl hh
      · right
        rcases Option.ne_none_iff_exists.mp hh with ⟨page, hpage⟩
        by_cases ho : (fetch url).ok = true
        · exact absurd ⟨⟨page, hpage.symm⟩, ho⟩ hsucc
        · simpa using ho
    rw [crawlStep_failed hq hv hfail]
    have htop : 3 ≤ topLinksToVisit cfg := le_max_left 3 _
    refine ⟨rfl, rfl, rfl, by simp, fun u => le_refl _, fun hm => by simpa using hm⟩

theorem crawlRun_stopped {cfg : CrawlCfg} {fetch : Str → FetchRes}
    {st : CrawlState} (h : crawlStopped cfg st = true) (n : Nat) :
    crawlRun cfg fetch n st = st := by
  cases n <;> simp [crawlRun, h]

theorem crawlRun_add (cfg : CrawlCfg) (fetch : Str → FetchRes) (m k : Nat) :
    ∀ st, crawlRun cfg fetch (m + k) st
      = crawlRun cfg fetch k (crawlRun cfg fetch m st) := by
  induction m with
  | zero => intro st; simp [crawlRun]
  | succ m ih =>
    intro st
    by_cases h : crawlStopped cfg st = true
    · rw [crawlRun_stopped h, crawlRun_stopped h]
      exact (crawlRun_stopped h k).symm
    · have hne : crawlStopped cfg st = false := by simpa using h
      have e1 : m + 1 + k = (m + k) + 1 := by omega
      rw [e1]
      show (if crawlStopped cfg st = true then st
            else crawlRun cfg fetch (m + k) (crawlStep cfg fetch st))
        = crawlRun cfg fetch k (crawlRun cfg fetch (m + 1) st)
      rw [if_neg (by simp [hne])]
      have e2 : crawlRun cfg fetch (m + 1) st
          = crawlRun cfg fetch m (crawlStep cfg fetch st) := by
        show (if crawlStopped cfg st = true then st
              else crawlRun cfg fetch m (crawlStep cfg fetch st)) = _
        rw [if_neg (by simp [hne])]
      rw [e2, ih]

theorem notStopped_queue {cfg : CrawlCfg} {st : CrawlState}
    (h : crawlStopped cfg st = false) :
    (∃ url qrest, st.queue = url :: qrest) ∧ st.visited.length < cfg.maxPages := by
  unfold crawlStopped at h
  simp only [Bool.or_eq_false_iff] at h
  rcases h with ⟨h1, h2⟩
  constructor
  · cases hq : st.queue with
    | nil => rw [hq] at h1; simp at h1
    | cons a t => exact ⟨a, t, rfl⟩
  · simpa using h2

/-- The budget invariant of the crawl loop (claim C1): the fetch log is
exactly the visited list, which stays duplicate-free and within
`maxPages`. -/
theorem crawlRun_budget (cfg : CrawlCfg) (fetch : Str → FetchRes) :
    ∀ (n : Nat) (st : CrawlState),
      st.fetchLog = st.visited → st.visited.Nodup →
      st.visited.length ≤ cfg.maxPages →
      (crawlRun cfg fetch n st).fetchLog = (crawlRun cfg fetch n st).visited ∧
      (crawlRun cfg fetch n st).visited.Nodup ∧
      (crawlRun cfg fetch n st).visited.length ≤ cfg.maxPages := by
  intro n
  induction n with
  | zero => intro st h1 h2 h3; exact ⟨h1, h2, h3⟩
  | succ n ih =>
    intro st h1 h2 h3
    by_cases hs : crawlStopped cfg st = true
    · rw [crawlRun_stopped hs]
      exact ⟨h1, h2, h3⟩
    · have hns : crawlStopped cfg st = false := by simpa using hs
      have hrun : crawlRun cfg fetch (n + 1) st
          = crawlRun cfg fetch n (crawlStep cfg fetch st) := by
        show (if crawlStopped cfg st = true then st
              else crawlRun cfg fetch n (crawlStep cfg fetch st)) = _
        rw [if_neg (by simp [hns])]
      rw [hrun]
      rcases notStopped_queue hns with ⟨⟨url, qrest, hq⟩, hlt⟩
      by_cases hv : st.visited.contains url = true
      · rw [crawlStep_stale hq hv]
        exact ih _ h1 h2 h3
      · have hv' : st.visited.contains url = false := by simpa using hv
        rcases @crawlStep_fresh _ fetch _ _ _ hq hv' with
          ⟨hvis, hlog, _, _, _, _⟩
        refine ih _ ?_ ?_ ?_
        · rw [hvis, hlog, h1]
        · rw [hvis]
          have hmem : url ∉ st.visited := by simpa using hv'
          simp [List.nodup_append, h2, hmem]
        · rw [hvis]
          simp only [List.length_append, List.length_singleton]
          omega

theorem crawlInit_visited (base : Str) (seeded : List Str) :
    (crawlInit base seeded).visited = [] := by
  unfold crawlInit
  rw [foldl_proj_eq (fun s => s.visited) _
    (fun s (b : Str) => enqueue_visited s b false), enqueue_visited]

theorem crawlInit_fetchLog (base : Str) (seeded : List Str) :
    (crawlInit base seeded).fetchLog = [] := by
  unfold crawlInit
  rw [foldl_proj_eq (fun s => s.fetchLog) _
    (fun s (b : Str) => enqueue_fetchLog s b false), enqueue_fetchLog]

theorem crawlInit_foundEmails (base : Str) (seeded : List Str) :
    (crawlInit base seeded).foundEmails = [] := by
  unfold crawlInit
  rw [foldl_proj_eq (fun s => s.foundEmails) _
    (fun s (b : Str) => enqueue_foundEmails s b false), enqueue_foundEmails]

theorem crawlInit_scoredLinks (base : Str) (seeded : List Str) :
    (crawlInit base seeded).scoredLinks = [] := by
  unfold crawlInit
  rw [foldl_proj_eq (fun s => s.scoredLinks) _
    (fun s (b : Str) => enqueue_scoredLinks s b false), enqueue_scoredLinks]

/-! ## Claim C1 — frontier/fetch budget -/

/-- C1: over any crawl (any fetch behaviour, any seeding, any fuel), the
number of `fetchHtml` calls never exceeds `maxPages` and no URL is fetched
twice: the loop inserts a URL into `visited` before fetching it and only
runs while `visited` has fewer than `maxPages` elements. -/
theorem C1_fetch_budget (cfg : CrawlCfg) (fetch : Str → FetchRes)
    (base : Str) (seeded : List Str) (n : Nat) :
    (crawlRun cfg fetch n (crawlInit base seeded)).fetchLog.length
        ≤ cfg.maxPages ∧
    (crawlRun cfg fetch n (crawlInit base seeded)).fetchLog.Nodup ∧
    (crawlRun cfg fetch n (crawlInit base seeded)).fetchLog
        = (crawlRun cfg fetch n (crawlInit base seeded)).visited := by
  have h := crawlRun_budget cfg fetch n (crawlInit base seeded)
    (by rw [crawlInit_fetchLog, crawlInit_visited])
    (by rw [crawlInit_visited]; exact List.nodup_nil)
    (by rw [crawlInit_visited]; simp)
  rcases h with ⟨h1, h2, h3⟩
  refine ⟨?_, ?_, h1⟩
  · rw [h1]; exact h3
  · rw [h1]; exact h2

/-! ## Claim C9 — score map invariants -/

theorem collectStep_pos (clex : CrawlLexicon) (baseHost : Str)
    (scored : List (Str × Int)) (el : Anchor)
    (h : ∀ p ∈ scored, 0 < p.2) :
    ∀ p ∈ collectStep clex baseHost scored el, 0 < p.2 := by
  unfold collectStep
  simp only []
  split
  · exact h
  · split
    · exact h
    · split
      · exact h
      · split
        · exact h
        · split
          · exact h
          · rcases el.resolved with _ | abs
            · exact h
            · simp only []
              split
              · exact h
              · split
                · exact h
                · split
                  · exact h
                  · split
                    · intro p hp
                      rcases mem_mapSet hp with hp | rfl
                      · exact h p hp
                      · simp only []
                        omega
                    · exact h

theorem collectScored_pos (clex : CrawlLexicon) (page : PageDoc)
    (baseHost : Str) :
    ∀ p ∈ collectScoredInternalLinks clex page baseHost, 0 < p.2 := by
  unfold collectScoredInternalLinks
  generalize page.anchors = anchors
  have haux : ∀ (l : List Anchor) (acc : List (Str × Int)),
      (∀ p ∈ acc, 0 < p.2) →
      ∀ p ∈ l.foldl (collectStep clex baseHost) acc, 0 < p.2 := by
    intro l
    induction l with
    | nil => intro acc h; simpa using h
    | cons a t ih =>
      intro acc h
      simp only [List.foldl_cons]
      exact ih _ (collectStep_pos clex baseHost acc a h)
  exact haux anchors [] (by simp)

/-- C9: (a) per-page link scoring keeps only strictly positive scores;
(b) the crawl-wide score map contains only strictly positive scores at
every point of every crawl; (c) merging keeps maxima, so no URL's recorded
score ever decreases as the crawl proceeds. -/
theorem C9_score_invariant :
    (∀ (clex : CrawlLexicon) (page : PageDoc) (baseHost : Str),
        ∀ p ∈ collectScoredInternalLinks clex page baseHost, 0 < p.2) ∧
    (∀ (cfg : CrawlCfg) (fetch : Str → FetchRes) (base : Str)
        (seeded : List Str) (n : Nat),
        ∀ p ∈ (crawlRun cfg fetch n (crawlInit base seeded)).scoredLinks,
          0 < p.2) ∧
    (∀ (m next : List (Str × Int)) (u : Str),
        mapGetD m u ≤ mapGetD (mergeScores m next) u) ∧
    (∀ (cfg : CrawlCfg) (fetch : Str → FetchRes) (st : CrawlState) (n : Nat)
        (u : Str),
        mapGetD st.scoredLinks u
          ≤ mapGetD (crawlRun cfg fetch n st).scoredLinks u) := by
  have hrunPos : ∀ (cfg : CrawlCfg) (fetch : Str → FetchRes) (n : Nat)
      (st : CrawlState), (∀ p ∈ st.scoredLinks, 0 < p.2) →
      ∀ p ∈ (crawlRun cfg fetch n st).scoredLinks, 0 < p.2 := by
    intro cfg fetch n
    induction n with
    | zero => intro st h; simpa [crawlRun] using h
    | succ n ih =>
      intro st h
      by_cases hs : crawlStopped cfg st = true
      · rw [crawlRun_stopped hs]; exact h
      · have hns : crawlStopped cfg st = false := by simpa using hs
        have hrun : crawlRun cfg fetch (n + 1) st
            = crawlRun cfg fetch n (crawlStep cfg fetch st) := by
          show (if crawlStopped cfg st = true then st
                else crawlRun cfg fetch n (crawlStep cfg fetch st)) = _
          rw [if_neg (by simp [hns])]
        rw [hrun]
        rcases notStopped_queue hns with ⟨⟨url, qrest, hq⟩, _⟩
        by_cases hv : st.visited.contains url = true
        · rw [crawlStep_stale hq hv]
          exact ih _ h
        · have hv' : st.visited.contains url = false := by simpa using hv
          rcases @crawlStep_fresh _ fetch _ _ _ hq hv' with
            ⟨_, _, _, _, _, hpos⟩
          exact ih _ (hpos h)
  have hrunMono : ∀ (cfg : CrawlCfg) (fetch : Str → FetchRes) (n : Nat)
      (st : CrawlState) (u : Str),
      mapGetD st.scoredLinks u
        ≤ mapGetD (crawlRun cfg fetch n st).scoredLinks u := by
    intro cfg fetch n
    induction n with
    | zero => intro st u; simp [crawlRun]
    | succ n ih =>
      intro st u
      by_cases hs : crawlStopped cfg st = true
      · rw [crawlRun_stopped hs]
      · have hns : crawlStopped cfg st = false := by simpa using hs
        have hrun : crawlRun cfg fetch (n + 1) st
            = crawlRun cfg fetch n (crawlStep cfg fetch st) := by
          show (if crawlStopped cfg st = true then st
                else crawlRun cfg fetch n (crawlStep cfg fetch st)) = _
          rw [if_neg (by simp [hns])]
        rw [hrun]
        rcases notStopped_queue hns with ⟨⟨url, qrest, hq⟩, _⟩
        by_cases hv : st.visited.contains url = true
        · rw [crawlStep_stale hq hv]
          exact ih _ u
        · have hv' : st.visited.contains url = false := by simpa using hv
          rcases @crawlStep_fresh _ fetch _ _ _ hq hv' with
            ⟨_, _, _, _, hmono, _⟩
          exact le_trans (hmono u) (ih _ u)
  refine ⟨collectScored_pos, ?_, mergeScores_get_le,
    fun cfg fetch st n u => hrunMono cfg fetch n st u⟩
  intro cfg fetch base seeded n
  exact hrunPos cfg fetch n _ (by rw [crawlInit_scoredLinks]; simp)

/-- Witness for C9 at a concrete crawl state. -/
theorem C9_score_invariant_witness :
    ∀ p ∈ collectScoredInternalLinks ⟨[strOf "kontakt"], [], [], [strOf "kontakt"]⟩
      ⟨[], [], [], [],
        [⟨strOf "/kontakt", strOf "Kontakt", true,
          some ⟨strOf "https:", strOf "ex.com", strOf "https://ex.com/kontakt"⟩⟩]⟩
      (strOf "ex.com"), 0 < p.2 :=
  C9_score_invariant.1 _ _ _

/-! ## Claim C10 — termination -/

theorem crawlStep_measure_lt (cfg : CrawlCfg) (fetch : Str → FetchRes)
    (st : CrawlState) (hns : crawlStopped cfg st = false) :
    crawlMeasure cfg (crawlStep cfg fetch st) < crawlMeasure cfg st := by
  rcases notStopped_queue hns with ⟨⟨url, qrest, hq⟩, hlt⟩
  by_cases hv : st.visited.contains url = true
  · rw [crawlStep_stale hq hv]
    unfold crawlMeasure
    simp only [hq, List.length_cons]
    omega
  · have hv' : st.visited.contains url = false := by simpa using hv
    rcases @crawlStep_fresh _ fetch _ _ _ hq hv' with
      ⟨hvis, _, _, hqlen, _, _⟩
    unfold crawlMeasure
    rw [hvis]
    simp only [List.length_append, List.length_singleton]
    have hmul : (cfg.maxPages - st.visited.length) * topLinksToVisit cfg
        = (cfg.maxPages - (st.visited.length + 1)) * topLinksToVisit cfg
          + topLinksToVisit cfg := by
      have he : cfg.maxPages - st.visited.length
          = (cfg.maxPages - (st.visited.length + 1)) + 1 := by omega
      rw [he, Nat.add_mul, Nat.one_mul]
    rw [hq]
    simp only [List.length_cons]
    omega

theorem crawlRun_term (cfg : CrawlCfg) (fetch : Str → FetchRes) :
    ∀ (n : Nat) (st : CrawlState), crawlMeasure cfg st ≤ n →
      crawlStopped cfg (crawlRun cfg fetch n st) = true := by
  intro n
  induction n with
  | zero =>
    intro st hm
    have hq : st.queue = [] := by
      unfold crawlMeasure at hm
      have : st.queue.length = 0 := by omega
      exact List.length_eq_zero.mp this
    simp [crawlRun, crawlStopped, hq]
  | succ n ih =>
    intro st hm
    by_cases hs : crawlStopped cfg st = true
    · rw [crawlRun_stopped hs]; exact hs
    · have hns : crawlStopped cfg st = false := by simpa using hs
      have hrun : crawlRun cfg fetch (n + 1) st
          = crawlRun cfg fetch n (crawlStep cfg fetch st) := by
        show (if crawlStopped cfg st = true then st
              else crawlRun cfg fetch n (crawlStep cfg fetch st)) = _
        rw [if_neg (by simp [hns])]
      rw [hrun]
      exact ih _ (by have := crawlStep_measure_lt cfg fetch st hns; omega)

/-- C10: every crawl terminates, for every behaviour of the mocked fetch:
the loop stops within `crawlMeasure` iterations (each iteration dequeues
one URL, a URL is enqueued at most once, and new URLs only enter the queue
from the finite seeds or during the at most `maxPages` visits, at most
`topLinksToVisit` each), and running with any larger fuel changes
nothing. -/
theorem C10_termination (cfg : CrawlCfg) (fetch : Str → FetchRes)
    (base : Str) (seeded : List Str) :
    crawlStopped cfg
      (crawlRun cfg fetch (crawlMeasure cfg (crawlInit base seeded))
        (crawlInit base seeded)) = true ∧
    (∀ n, crawlMeasure cfg (crawlInit base seeded) ≤ n →
      crawlRun cfg fetch n (crawlInit base seeded)
        = crawlRun cfg fetch (crawlMeasure cfg (crawlInit base seeded))
            (crawlInit base seeded)) := by
  constructor
  · exact crawlRun_term cfg fetch _ _ (le_refl _)
  · intro n hn
    have he : n = crawlMeasure cfg (crawlInit base seeded)
        + (n - crawlMeasure cfg (crawlInit base seeded)) := by omega
    rw [he, crawlRun_add]
    exact crawlRun_stopped (crawlRun_term cfg fetch _ _ (le_refl _)) _

/-- Witness for C10 on a concrete crawl configuration. -/
theorem C10_termination_witness :
    crawlStopped ⟨8, 8, strOf "ex.com", ⟨[], [], [], []⟩,
        ⟨[], [], [], [], [], [], [], fun _ => false⟩⟩
      (crawlRun ⟨8, 8, strOf "ex.com", ⟨[], [], [], []⟩,
          ⟨[], [], [], [], [], [], [], fun _ => false⟩⟩
        (fun _ => ⟨false, none, none⟩)
        (crawlMeasure ⟨8, 8, strOf "ex.com", ⟨[], [], [], []⟩,
            ⟨[], [], [], [], [], [], [], fun _ => false⟩⟩
          (crawlInit (strOf "https://ex.com") [strOf "https://ex.com/contact"]))
        (crawlInit (strOf "https://ex.com") [strOf "https://ex.com/contact"]))
      = true ∧
    crawlRun ⟨8, 8, strOf "ex.com", ⟨[], [], [], []⟩,
        ⟨[], [], [], [], [], [], [], fun _ => false⟩⟩
      (fun _ => ⟨false, none, none⟩) 100
      (crawlInit (strOf "https://ex.com") [strOf "https://ex.com/contact"])
      = crawlRun ⟨8, 8, strOf "ex.com", ⟨[], [], [], []⟩,
          ⟨[], [], [], [], [], [], [], fun _ => false⟩⟩
        (fun _ => ⟨false, none, none⟩)
        (crawlMeasure ⟨8, 8, strOf "ex.com", ⟨[], [], [], []⟩,
            ⟨[], [], [], [], [], [], [], fun _ => false⟩⟩
          (crawlInit (strOf "https://ex.com") [strOf "https://ex.com/contact"]))
        (crawlInit (strOf "https://ex.com") [strOf "https://ex.com/contact"]) := by
  constructor
  · exact (C10_termination _ _ _ _).1
  · exact (C10_termination _ _ _ _).2 100 (by decide)

/-! ## Claim C7 — fetch-failure behaviour -/

theorem crawlRun_failFetch_found (cfg : CrawlCfg) :
    ∀ (n : Nat) (st : CrawlState),
      (crawlRun cfg (fun _ => ⟨false, none, none⟩) n st).foundEmails
        = st.foundEmails := by
  intro n
  induction n with
  | zero => intro st; rfl
  | succ n ih =>
    intro st
    by_cases hs : crawlStopped cfg st = true
    · rw [crawlRun_stopped hs]
    · have hns : crawlStopped cfg st = false := by simpa using hs
      have hrun : crawlRun cfg (fun _ => ⟨false, none, none⟩) (n + 1) st
          = crawlRun cfg (fun _ => ⟨false, none, none⟩) n
              (crawlStep cfg (fun _ => ⟨false, none, none⟩) st) := by
        show (if crawlStopped cfg st = true then st else _) = _
        rw [if_neg (by simp [hns])]
      rw [hrun]
      rcases notStopped_queue hns with ⟨⟨url, qrest, hq⟩, _⟩
      by_cases hv : st.visited.contains url = true
      · rw [crawlStep_stale hq hv, ih]
      · have hv' : st.visited.contains url = false := by simpa using hv
        rw [crawlStep_failed hq hv' (Or.inl rfl), ih]

/-- C7: fetch failures never escape: `fetchHtml` converts every raised
transport error and every non-HTML response into an `ok: false` result; a
fresh dequeue whose fetch fails counts toward the visited budget and
sleeps the inter-page delay exactly like a successful one, and the crawl
just continues with the rest of the queue; a crawl that finds nothing
returns normally with `emails = []`. -/
theorem C7_failure_handling :
    (∀ e : Str, fetchHtml (Except.error e) = ⟨false, none, none, none, some e⟩) ∧
    (∀ resp : HttpResp,
        containsSub resp.contentType (strOf "text/html") = false →
        containsSub resp.contentType (strOf "application/xhtml") = false →
        (fetchHtml (Except.ok resp)).ok = false) ∧
    (∀ (cfg : CrawlCfg) (fetch : Str → FetchRes) (st : CrawlState)
        (url : Str) (qrest : List Str),
        st.queue = url :: qrest → st.visited.contains url = false →
        (fetch url).html = none ∨ (fetch url).ok = false →
        crawlStep cfg fetch st = { st with
          queue := qrest
          visited := st.visited ++ [url]
          fetchLog := st.fetchLog ++ [url]
          sleeps := st.sleeps + 1 }) ∧
    (∀ (cfg : CrawlCfg) (fetch : Str → FetchRes) (st : CrawlState)
        (url : Str) (qrest : List Str),
        st.queue = url :: qrest → st.visited.contains url = false →
        (crawlStep cfg fetch st).visited = st.visited ++ [url] ∧
        (crawlStep cfg fetch st).sleeps = st.sleeps + 1) ∧
    (∀ (cfg : CrawlCfg) (base : Str) (st : CrawlState),
        st.foundEmails = [] → (crawlFinish cfg base st).emails = []) ∧
    (∀ (cfg : CrawlCfg) (base : Str) (seeded : List Str),
        (crawlForEmails cfg (fun _ => ⟨false, none, none⟩) base seeded).emails
          = []) := by
  refine ⟨fun e => rfl, ?_, ?_, ?_, ?_, ?_⟩
  · intro resp h1 h2
    unfold fetchHtml
    simp [h1, h2]
  · intro cfg fetch st url qrest hq hv hfail
    exact crawlStep_failed hq hv hfail
  · intro cfg fetch st url qrest hq hv
    rcases @crawlStep_fresh _ fetch _ _ _ hq hv with ⟨h1, _, h2, _, _, _⟩
    exact ⟨h1, h2⟩
  · intro cfg base st h
    unfold crawlFinish
    simp only [h]
    split
    · rfl
    · simp [rankEmails, dedupFirst, sortDesc]
  · intro cfg base seeded
    unfold crawlForEmails
    have hf := crawlRun_failFetch_found cfg
      (crawlMeasure cfg (crawlInit base seeded)) (crawlInit base seeded)
    rw [crawlInit_foundEmails] at hf
    unfold crawlFinish
    simp only [hf]
    split
    · rfl
    · simp [rankEmails, dedupFirst, sortDesc]

/-- Witness for C7 at concrete inputs. -/
theorem C7_failure_handling_witness :
    (fetchHtml (Except.error (strOf "timeout"))
      = ⟨false, none, none, none, some (strOf "timeout")⟩) ∧
    (fetchHtml (Except.ok ⟨200, strOf "application/pdf", [], strOf "u"⟩)).ok
      = false ∧
    (crawlForEmails ⟨8, 8, strOf "ex.com", ⟨[], [], [], []⟩,
        ⟨[], [], [], [], [], [], [], fun _ => false⟩⟩
      (fun _ => ⟨false, none, none⟩) (strOf "https://ex.com")
      [strOf "https://ex.com/contact"]).emails = [] := by
  refine ⟨C7_failure_handling.1 (strOf "timeout"), ?_, ?_⟩
  · exact C7_failure_handling.2.1 _ (by decide) (by decide)
  · exact C7_failure_handling.2.2.2.2.2 _ _ _

/-! ## Claim C6 — canonicalisation -/

/-- The outcome of one candidate probe inside `resolveCanonicalBaseUrl`:
`some origin` when the probe succeeds and its final URL is http(s). -/
def probeSuccess (prober : Str → ProbeRes) (origin : Str) : Option Str :=
  let r := prober (origin ++ strOf "/")
  match r.finalUrl with
  | some fu =>
    if r.ok then
      match jsUrlParse fu with
      | some u =>
        if u.protocol = strOf "http:" || u.protocol = strOf "https:" then
          some (jsUrlOrigin u)
        else none
      | none => none
    else none
  | none => none

theorem resolveLoop_cons (prober : Str → ProbeRes) (c : Str)
    (rest : List Str) :
    resolveLoop prober (c :: rest)
      = match probeSuccess prober c with
        | some o => some o
        | none => resolveLoop prober rest := by
  conv_lhs => rw [resolveLoop]
  unfold probeSuccess
  simp only []
  rcases h1 : (prober (c ++ strOf "/")).finalUrl with _ | fu
  · rfl
  · by_cases hok : (prober (c ++ strOf "/")).ok
    · simp only [hok, if_true]
      rcases h2 : jsUrlParse fu with _ | u
      · rfl
      · simp only []
        split
        · rfl
        · rfl
    · simp only [hok, Bool.false_eq_true, if_false]

theorem resolveLoop_all_none (prober : Str → ProbeRes) :
    ∀ (cands : List Str), (∀ c ∈ cands, probeSuccess prober c = none) →
      resolveLoop prober cands = none := by
  intro cands
  induction cands with
  | nil => intro _; rfl
  | cons c rest ih =>
    intro h
    rw [resolveLoop_cons, h c (List.mem_cons_self c rest)]
    exact ih (fun x hx => h x (List.mem_cons_of_mem c hx))

theorem resolveLoop_first (prober : Str → ProbeRes) (o : Str) :
    ∀ (pre : List Str) (c : Str) (post : List Str),
      (∀ x ∈ pre, probeSuccess prober x = none) →
      probeSuccess prober c = some o →
      resolveLoop prober (pre ++ c :: post) = some o := by
  intro pre
  induction pre with
  | nil =>
    intro c post _ hc
    rw [List.nil_append, resolveLoop_cons, hc]
  | cons x xs ih =>
    intro c post hpre hc
    rw [List.cons_append, resolveLoop_cons,
      hpre x (List.mem_cons_self x xs)]
    exact ih c post (fun y hy => hpre y (List.mem_cons_of_mem x hy)) hc

/-- C6 (amended): the candidate origins are `https://host`,
`https://www.host`, `http://host`, `http://www.host` in that fixed order
when the extracted host does not itself start with `www.` (only the two
non-`www` candidates otherwise); the first candidate whose probe succeeds
with an http(s) final URL wins and its redirect-resolved origin is
returned; with the mocked prober succeeding only for
`https://www.example.com`, `"example.com"` resolves to exactly
`https://www.example.com`; if every probe fails the result falls back to
`https://host`; and the result is `null` exactly when no hostname can be
extracted (given the fallback URL parses, which it does for every
extracted host shape). -/
theorem C6_canonical :
    (∀ h : Str, h ≠ [] → lowerStr h = h → trimStr h = h →
        (strOf "www.").isPrefixOf h = false →
        buildOriginCandidates h
          = [strOf "https://" ++ h, strOf "https://www." ++ h,
             strOf "http://" ++ h, strOf "http://www." ++ h]) ∧
    (∀ (prober : Str → ProbeRes) (o : Str) (pre : List Str) (c : Str)
        (post : List Str),
        (∀ x ∈ pre, probeSuccess prober x = none) →
        probeSuccess prober c = some o →
        resolveLoop prober (pre ++ c :: post) = some o) ∧
    (∀ (prober : Str → ProbeRes) (input : Str),
        extractHostnameCandidate input = [] →
        resolveCanonicalBaseUrl prober input = none) ∧
    (∀ (prober : Str → ProbeRes) (input host : Str),
        extractHostnameCandidate input = host → host ≠ [] →
        (∀ c ∈ buildOriginCandidates host, probeSuccess prober c = none) →
        jsUrlParse (strOf "https://" ++ host)
          = some ⟨strOf "https:", host, []⟩ →
        resolveCanonicalBaseUrl prober input
          = some (strOf "https://" ++ host)) ∧
    resolveCanonicalBaseUrl
      (fun u => if u = strOf "https://www.example.com/" then
          ⟨true, some (strOf "https://www.example.com/")⟩
        else ⟨false, none⟩)
      (strOf "example.com") = some (strOf "https://www.example.com") := by
  refine ⟨?_, ?_, ?_, ?_, by decide⟩
  · intro h hne hlow htrim hww
    unfold buildOriginCandidates
    rw [htrim, hlow]
    rw [if_neg (by simpa using hne)]
    have hwwne : strOf "www." ++ h ≠ h := by
      intro he
      have := congrArg List.length he
      simp [strOf] at this
      omega
    simp only [hww, Bool.false_eq_true, if_false, if_pos hwwne,
      List.cons_append, List.nil_append]
    have e1 : strOf "https://" ++ (strOf "www." ++ h)
        = strOf "https://www." ++ h := by
      rw [← List.append_assoc]; rfl
    have e2 : strOf "http://" ++ (strOf "www." ++ h)
        = strOf "http://www." ++ h := by
      rw [← List.append_assoc]; rfl
    rw [e1, e2]
  · intro prober o pre c post hpre hc
    exact resolveLoop_first prober o pre c post hpre hc
  · intro prober input hhost
    unfold resolveCanonicalBaseUrl
    rw [hhost]
    rfl
  · intro prober input host hhost hne hfail hparse
    unfold resolveCanonicalBaseUrl
    rw [hhost]
    rw [if_neg (by simpa using hne)]
    rw [resolveLoop_all_none prober _ hfail, hparse]
    unfold jsUrlOrigin
    simp only [List.isEmpty_nil, Bool.or_true, if_true, List.append_nil]
    rfl

/-- C6 counterexample to the claim as frozen: for input
`"www.www.foo.com"` (extracted host `www.foo.com`), the code builds only 2
candidate origins — `https://www.www.foo.com` is never probed — so a
prober that would succeed exactly there is never consulted and the crawl
falls back to `https://www.foo.com` instead of returning
`https://www.www.foo.com` as the claim's "exactly the 4 candidate origins"
prescribes. -/
theorem C6_counterexample :
    extractHostnameCandidate (strOf "www.www.foo.com") = strOf "www.foo.com" ∧
    buildOriginCandidates (strOf "www.foo.com")
      = [strOf "https://www.foo.com", strOf "http://www.foo.com"] ∧
    resolveCanonicalBaseUrl
      (fun u => if u = strOf "https://www.www.foo.com/" then
          ⟨true, some (strOf "https://www.www.foo.com/")⟩
        else ⟨false, none⟩)
      (strOf "www.www.foo.com") = some (strOf "https://www.foo.com") := by
  refine ⟨by decide, by decide, by decide⟩

/-- Witness for C6 at concrete inputs. -/
theorem C6_canonical_witness :
    buildOriginCandidates (strOf "example.com")
      = [strOf "https://example.com", strOf "https://www.example.com",
         strOf "http://example.com", strOf "http://www.example.com"] ∧
    resolveCanonicalBaseUrl (fun _ => ⟨false, none⟩) (strOf "example.com")
      = some (strOf "https://example.com") := by
  constructor
  · have := C6_canonical.1 (strOf "example.com") (by decide) (by decide)
      (by decide) (by decide)
    simpa using this
  · exact C6_canonical.2.2.2.1 (fun _ => ⟨false, none⟩) (strOf "example.com")
      (strOf "example.com") (by decide) (by decide) (by decide) (by decide)

/-! ## structure of the raw scan matches -/

theorem dropLenTakeWhile (p : Char → Bool) (l : Str) :
    l.drop (l.takeWhile p).length = l.dropWhile p := by
  induction l with
  | nil => simp
  | cons a t ih =>
    by_cases h : p a
    · simp [List.takeWhile, List.dropWhile, h, ih]
    · simp [List.takeWhile, List.dropWhile, h]

theorem domainSplitAt_decomp {q : Str} :
    ∀ {j : Nat} {d remQ : Str}, domainSplitAt q j = some (d, remQ) →
      q = d ++ remQ ∧ 1 ≤ d.length := by
  intro j
  induction j with
  | zero => intro d remQ h; simp [domainSplitAt] at h
  | succ k ih =>
    intro d remQ h
    unfold domainSplitAt at h
    rcases hfirst : (if hlt : k + 1 < q.length then
        if q.get ⟨k + 1, hlt⟩ = '.' then
          let run := (q.drop (k + 2)).takeWhile isAlphaCh
          if 2 ≤ run.length then
            some (q.take (k + 1) ++ '.' :: run, q.drop (k + 2 + run.length))
          else none
        else none
      else none) with _ | pr
    · rw [hfirst] at h
      simp only [Option.orElse] at h
      exact ih h
    · rw [hfirst] at h
      simp only [Option.orElse] at h
      cases h
      by_cases hlt : k + 1 < q.length
      · rw [dif_pos hlt] at hfirst
        by_cases hdot : q.get ⟨k + 1, hlt⟩ = '.'
        · rw [if_pos hdot] at hfirst
          simp only [] at hfirst
          by_cases hrun : 2 ≤ ((q.drop (k + 2)).takeWhile isAlphaCh).length
          · rw [if_pos hrun] at hfirst
            cases hfirst
            constructor
            · have e1 : q = q.take (k + 1) ++ q.drop (k + 1) :=
                (List.take_append_drop (k + 1) q).symm
              have e2 : q.drop (k + 1) = q.get ⟨k + 1, hlt⟩ :: q.drop (k + 2) :=
                List.drop_eq_getElem_cons hlt
              have e3 : q.drop (k + 2)
                  = (q.drop (k + 2)).takeWhile isAlphaCh
                    ++ (q.drop (k + 2)).dropWhile isAlphaCh :=
                (List.takeWhile_append_dropWhile isAlphaCh (q.drop (k + 2))).symm
              have e4 : q.drop (k + 2 + ((q.drop (k + 2)).takeWhile isAlphaCh).length)
                  = (q.drop (k + 2)).dropWhile isAlphaCh := by
                rw [← dropLenTakeWhile isAlphaCh (q.drop (k + 2)), List.drop_drop]
              rw [e4]
              conv_lhs => rw [e1, e2, e3]
              rw [hdot]
              simp
            · simp only [List.length_append, List.length_take, List.length_cons]
              omega
          · rw [if_neg hrun] at hfirst; cases hfirst
        · rw [if_neg hdot] at hfirst; cases hfirst
      · rw [dif_neg hlt] at hfirst; cases hfirst

theorem takeWhile_decomp (p : Char → Bool) (s : Str) :
    s = s.takeWhile p ++ s.drop (s.takeWhile p).length := by
  rw [dropLenTakeWhile]
  exact (List.takeWhile_append_dropWhile p s).symm

theorem matchEmailAt_decomp {s u d r : Str}
    (h : matchEmailAt s = some (u, d, r)) : s = u ++ '@' :: (d ++ r) := by
  unfold matchEmailAt at h
  simp only [] at h
  by_cases hemp : (s.takeWhile localCls).isEmpty
  · simp [hemp] at h
  · rw [if_neg (by simpa using hemp)] at h
    rcases hdrop : s.drop (s.takeWhile localCls).length with _ | ⟨c, s2⟩
    · rw [hdrop] at h; cases h
    · rw [hdrop] at h
      simp only [matchAfterLocal] at h
      by_cases hc : c = '@'
      · rw [if_pos hc] at h
        rcases hsplit : findDomainSplit (s2.takeWhile domCls) with _ | ⟨d0, remQ⟩
        · rw [hsplit] at h; cases h
        · rw [hsplit] at h
          simp only [Option.some.injEq, Prod.mk.injEq] at h
          rcases h with ⟨hu, hd, hr⟩
          have hq := (@domainSplitAt_decomp (s2.takeWhile domCls)
            ((s2.takeWhile domCls).length - 1) _ _ hsplit).1
          have e1 : s = s.takeWhile localCls
              ++ s.drop (s.takeWhile localCls).length :=
            takeWhile_decomp localCls s
          have e2 : s2 = s2.takeWhile domCls
              ++ s2.drop (s2.takeWhile domCls).length :=
            takeWhile_decomp domCls s2
          rw [e1, hdrop, hc, ← hu, ← hd, ← hr]
          conv_lhs => rw [e2, hq]
          simp
          rw [hq, List.length_append]
      · rw [if_neg hc] at h; cases h

/-! ## Claim C2 — blocklist enforcement -/

theorem toNat_ofNatValid {n : Nat} (h : n.isValidChar) :
    (Char.ofNat n).toNat = n := by
  unfold Char.ofNat
  rw [dif_pos h]
  unfold Char.ofNatAux Char.toNat
  simp [UInt32.toNat]

theorem lowerChar_idem (c : Char) : lowerChar (lowerChar c) = lowerChar c := by
  unfold lowerChar Char.toLower
  by_cases h : c.toNat ≥ 65 ∧ c.toNat ≤ 90
  · rw [if_pos h]
    have hv : (Char.ofNat (c.toNat + 32)).toNat = c.toNat + 32 :=
      toNat_ofNatValid (Or.inl (by omega))
    rw [if_neg]
    omega
  · rw [if_neg h, if_neg h]

theorem lowerStr_idem (s : Str) : lowerStr (lowerStr s) = lowerStr s := by
  unfold lowerStr
  rw [List.map_map]
  exact List.map_congr_left (fun c _ => lowerChar_idem c)

theorem lowerChar_eq_of_isLower {c : Char} (h : isLowerCh c = true) :
    lowerChar c = c := by
  unfold isLowerCh at h
  simp only [Bool.and_eq_true, decide_eq_true_eq] at h
  have h1 : 97 ≤ c.toNat := by
    have := h.1
    simp [Char.le_def, UInt32.le_def] at this
    simpa [Char.toNat] using this
  unfold lowerChar Char.toLower
  rw [if_neg]
  omega

theorem lowerChar_eq_of_isDigit {c : Char} (h : isDigitCh c = true) :
    lowerChar c = c := by
  unfold isDigitCh at h
  simp only [Bool.and_eq_true, decide_eq_true_eq] at h
  have h2 : c.toNat ≤ 57 := by
    have := h.2
    simp [Char.le_def, UInt32.le_def] at this
    simpa [Char.toNat] using this
  unfold lowerChar Char.toLower
  rw [if_neg]
  omega

/-- the characters allowed by `isValidUser` and `isValidDomain` are fixed
by ASCII lowercasing. -/
theorem lowerChar_eq_of_allowed {c : Char}
    (h : isLowerCh c = true ∨ isDigitCh c = true ∨
      c = '.' ∨ c = '_' ∨ c = '+' ∨ c = '-') :
    lowerChar c = c := by
  rcases h with h | h | rfl | rfl | rfl | rfl
  · exact lowerChar_eq_of_isLower h
  · exact lowerChar_eq_of_isDigit h
  · decide
  · decide
  · decide
  · decide

theorem validUser_chars {lex : EmailLexicon} {u : Str}
    (h : isValidUser lex u = true) :
    ∀ c ∈ u, isLowerCh c = true ∨ isDigitCh c = true ∨
      c = '.' ∨ c = '_' ∨ c = '+' ∨ c = '-' := by
  intro c hc
  cases u with
  | nil => simp at hc
  | cons c0 ut =>
    unfold isValidUser at h
    simp only [Bool.and_eq_true] at h
    have hall := h.1.1.1.1.1
    unfold hasOnlyAllowedEmailChars at hall
    simp only [Bool.and_eq_true, List.all_eq_true] at hall
    have := hall.2 c hc
    simp only [Bool.or_eq_true, decide_eq_true_eq] at this
    tauto

theorem validDomain_chars {d : Str} (h : isValidDomain d = true) :
    ∀ c ∈ d, isLowerCh c = true ∨ isDigitCh c = true ∨ c = '.' ∨ c = '-' := by
  intro c hc
  cases d with
  | nil => simp at hc
  | cons c0 dt =>
    unfold isValidDomain at h
    simp only [Bool.and_eq_true] at h
    have hshape := h.1.2
    rcases hmatch : (c0 :: dt).reverse.drop
        (((c0 :: dt).reverse.takeWhile isLowerCh).length) with _ | ⟨x, pre⟩
    · rw [hmatch] at hshape
      simp at hshape
    · rw [hmatch] at hshape
      simp only [Bool.and_eq_true, List.all_eq_true] at hshape
      have := hshape.2.2 c hc
      unfold lowDomCls at this
      simp only [Bool.or_eq_true, decide_eq_true_eq] at this
      tauto

theorem validUser_lowerFixed {lex : EmailLexicon} {u : Str}
    (h : isValidUser lex u = true) : lowerStr u = u := by
  unfold lowerStr
  rw [List.map_congr_left (fun c hc => lowerChar_eq_of_allowed (validUser_chars h c hc))]
  exact List.map_id u

theorem validDomain_lowerFixed {d : Str} (h : isValidDomain d = true) :
    lowerStr d = d := by
  unfold lowerStr
  rw [List.map_congr_left (fun c hc => by
    rcases validDomain_chars h c hc with hh | hh | rfl | rfl
    · exact lowerChar_eq_of_isLower hh
    · exact lowerChar_eq_of_isDigit hh
    · decide
    · decide)]
  exact List.map_id d

theorem validUser_no_at {lex : EmailLexicon} {u : Str}
    (h : isValidUser lex u = true) : ∀ c ∈ u, c ≠ '@' := by
  intro c hc
  rcases validUser_chars h c hc with hh | hh | rfl | rfl | rfl | rfl
  · intro he; subst he; simp [isLowerCh] at hh
  · intro he; subst he; simp [isDigitCh] at hh
  · decide
  · decide
  · decide
  · decide

theorem validDomain_no_at {d : Str} (h : isValidDomain d = true) :
    ∀ c ∈ d, c ≠ '@' := by
  intro c hc
  rcases validDomain_chars h c hc with hh | hh | rfl | rfl
  · intro he; subst he; simp [isLowerCh] at hh
  · intro he; subst he; simp [isDigitCh] at hh
  · decide
  · decide

/-- `emailDomOf` recovers the domain of a well-formed accepted email. -/
theorem emailDomOf_eq {u d : Str} (hu : ∀ c ∈ u, c ≠ '@')
    (hd : ∀ c ∈ d, c ≠ '@') : emailDomOf (u ++ '@' :: d) = d := by
  unfold emailDomOf
  have h1 : (u ++ '@' :: d).dropWhile (fun c => c ≠ '@') = '@' :: d := by
    induction u with
    | nil => simp [List.dropWhile]
    | cons a t ih =>
      have ha : a ≠ '@' := hu a (List.mem_cons_self a t)
      rw [List.cons_append, List.dropWhile_cons_of_pos (by simpa using ha)]
      exact ih (fun c hc => hu c (List.mem_cons_of_mem a hc))
  rw [h1]
  simp only [List.drop_succ_cons, List.drop_zero]
  clear h1
  induction d with
  | nil => simp
  | cons a t ih =>
    have ha : a ≠ '@' := hd a (List.mem_cons_self a t)
    rw [List.takeWhile_cons_of_pos (by simpa using ha)]
    rw [ih (fun c hc => hd c (List.mem_cons_of_mem a hc))]

/-- what `extractEmailsFromText` guarantees about every accepted email. -/
def AcceptedBase (lex : EmailLexicon) (e : Str) : Prop :=
  ∃ u d, e = u ++ '@' :: d ∧ isValidUser lex u = true ∧
    isValidDomain d = true ∧ isBlockedDomain lex d = false ∧
    isPlaceholderOrTest lex u d = false ∧
    looksLikeFile lex (u ++ '@' :: d) = false

theorem extractFold_acceptedBase (lex : EmailLexicon) (normalized : Str)
    (out : List Str) (m : Str × Str)
    (h : ∀ e ∈ out, AcceptedBase lex e) :
    ∀ e ∈ extractFold lex normalized out m, AcceptedBase lex e := by
  intro e he
  unfold extractFold at he
  simp only [] at he
  split at he
  · exact h e he
  · split at he
    · exact h e he
    · split at he
      · exact h e he
      · split at he
        · exact h e he
        · split at he
          · exact h e he
          · split at he
            · exact h e he
            · split at he
              · exact h e he
              · rename_i hne hvu hvd hbl hpl hfile hdup
                rcases List.mem_append.mp he with he | he
                · exact h e he
                · have he' : e = decontaminatePhoneSuffixUser lex
                      (lowerStr m.1) (lowerStr m.2) normalized
                      ++ '@' :: lowerStr m.2 := by simpa using he
                  refine ⟨_, _, he', ?_, ?_, ?_, ?_, ?_⟩
                  · simpa using hvu
                  · simpa using hvd
                  · simpa using hbl
                  · simpa using hpl
                  · simpa using hfile

theorem foldl_acceptedBase (lex : EmailLexicon) (normalized : Str) :
    ∀ (l : List (Str × Str)) (out : List Str),
      (∀ e ∈ out, AcceptedBase lex e) →
      ∀ e ∈ l.foldl (extractFold lex normalized) out, AcceptedBase lex e := by
  intro l
  induction l with
  | nil => intro out h; simpa using h
  | cons m ms ih =>
    intro out h
    rw [List.foldl_cons]
    exact ih _ (extractFold_acceptedBase lex normalized out m h)

theorem extract_acceptedBase (lex : EmailLexicon) (text : Str) :
    ∀ e ∈ extractEmailsFromText lex text, AcceptedBase lex e := by
  unfold extractEmailsFromText
  exact foldl_acceptedBase lex _ _ [] (by simp)

/-- C2 (amended): no accepted email of `extractEmailsFromText` — hence of
the three text-based sources of `extractEmailsFromHtmlBetter` — has a
blocked domain or a subdomain of a blocked suffix; concretely, a sentry.io
address and a subdomain address are both rejected.  (The `mailto:` harvest
of `extractEmailsFromHtmlBetter` bypasses this filter, see
`C2_counterexample`.) -/
theorem C2_blocklist :
    (∀ (lex : EmailLexicon) (text e : Str),
        e ∈ extractEmailsFromText lex text →
        isBlockedDomain lex (emailDomOf e) = false) ∧
    extractEmailsFromText
      ⟨[], [strOf "sentry.io"], [], [], [], [], [], fun _ => false⟩
      (strOf "report bugs to noreply@sentry.io please") = [] ∧
    extractEmailsFromText
      ⟨[], [strOf "sentry.io"], [], [], [], [], [], fun _ => false⟩
      (strOf "errors: info@o.ingest.sentry.io here") = [] := by
  refine ⟨?_, by decide, by decide⟩
  intro lex text e he
  rcases extract_acceptedBase lex text e he with
    ⟨u, d, rfl, hvu, hvd, hbl, _, _⟩
  rw [emailDomOf_eq (validUser_no_at hvu) (validDomain_no_at hvd)]
  exact hbl

/-- Witness for C2 at a concrete input. -/
theorem C2_blocklist_witness :
    isBlockedDomain ⟨[], [strOf "sentry.io"], [], [], [], [], [],
        fun _ => false⟩
      (emailDomOf (strOf "team@studio.example")) = false := by
  have hmem : strOf "team@studio.example" ∈ extractEmailsFromText
      ⟨[], [strOf "sentry.io"], [], [], [], [], [], fun _ => false⟩
      (strOf "write team@studio.example today") := by decide
  exact C2_blocklist.1 _ _ _ hmem

/-- C2 counterexample to the claim as frozen: `extractEmailsFromHtmlBetter`
adds `mailto:` href addresses to the crawl-wide set after only an `@`
check, so with `sentry.io` blocked, a page whose only content is
`<a href="mailto:noreply@sentry.io">` still yields `noreply@sentry.io` in
the extraction output. -/
theorem C2_counterexample :
    extractEmailsFromHtmlBetter
      ⟨[], [strOf "sentry.io"], [], [], [], [], [], fun _ => false⟩
      ⟨[], [], [], [strOf "mailto:noreply@sentry.io"], []⟩
      = [strOf "noreply@sentry.io"] ∧
    isBlockedDomain
      ⟨[], [strOf "sentry.io"], [], [], [], [], [], fun _ => false⟩
      (emailDomOf (strOf "noreply@sentry.io")) = true := by
  refine ⟨by decide, by decide⟩

/-! ## Claim C3 — de-obfuscation round-trip -/

/-- the benign test lexicon: nothing blocked, no machine-user patterns. -/
def lexPlain : EmailLexicon := ⟨[], [], [], [], [], [], [], fun _ => false⟩

/-- the crawl extraction pipeline applied to one text blob:
`extractEmailsFromText(normalizeTextForEmailHarvest(s))` as in
`extractEmailsFromHtmlBetter`. -/
def harvestPipeline (lex : EmailLexicon) (s : Str) : List Str :=
  extractEmailsFromText lex (normalizeTextForEmailHarvest s)

/-- C3: each listed obfuscation variant of `user@domain.com` — HTML-entity
`@`/`.`, the `(at)`/`[at]`/bare-`at` and `(dot)`/`[dot]`/bare-`dot`
substitutions, and inserted zero-width characters — is recovered as the
canonical `user@domain.com` by the crawl's extraction pipeline, because
the substitutions are applied to the whole text before the email regex
scans it. -/
theorem C3_deobfuscation :
    harvestPipeline lexPlain (strOf "user&#64;domain&#46;com")
      = [strOf "user@domain.com"] ∧
    harvestPipeline lexPlain (strOf "user (at) domain (dot) com")
      = [strOf "user@domain.com"] ∧
    harvestPipeline lexPlain (strOf "user [at] domain [dot] com")
      = [strOf "user@domain.com"] ∧
    harvestPipeline lexPlain (strOf "user at domain dot com")
      = [strOf "user@domain.com"] ∧
    harvestPipeline lexPlain (strOf "user​@domain‌.com﻿")
      = [strOf "user@domain.com"] ∧
    harvestPipeline lexPlain (strOf "user [at] domain&#46;com")
      = [strOf "user@domain.com"] ∧
    harvestPipeline lexPlain (strOf "mail: user&#64;domain.com now")
      = [strOf "user@domain.com"] := by
  refine ⟨by decide, by decide, by decide, by decide, by decide, by decide,
    by decide⟩

/-! ## Claim C4 — phone-tail repair -/

theorem takeWhile_append_all {p : Char → Bool} :
    ∀ {l1 l2 : Str}, (∀ c ∈ l1, p c = true) →
      (match l2 with | [] => True | c :: _ => p c = false) →
      (l1 ++ l2).takeWhile p = l1 := by
  intro l1
  induction l1 with
  | nil =>
    intro l2 _ h2
    cases l2 with
    | nil => rfl
    | cons c t => simpa [List.takeWhile_cons, h2]
  | cons a t ih =>
    intro l2 h1 h2
    rw [List.cons_append,
      List.takeWhile_cons_of_pos (h1 a (List.mem_cons_self a t))]
    rw [ih (fun c hc => h1 c (List.mem_cons_of_mem a hc)) h2]

/-- C4: when a matched local part is a ≥3-digit run followed by a
letter-initial candidate (≥2 chars over the local-part class) that passes
the machine-user and human-enough checks, the digit run is stripped iff
the clean candidate email occurs in the normalized text or the run has
length ≥5 (and the result is always the candidate or the original local
part); in particular the `+420 226 200 150` texts yield `qarta@qarta.cz`
and never `150qarta@qarta.cz`. -/
theorem C4_phone_tail :
    (∀ (lex : EmailLexicon) (digits : Str) (c0 : Char) (crest domain text : Str),
        (∀ c ∈ digits, isDigitCh c = true) → 3 ≤ digits.length →
        1 ≤ crest.length → isAlphaCh c0 = true →
        ((c0 :: crest).all localCls) = true →
        lowerStr (digits ++ c0 :: crest) = digits ++ c0 :: crest →
        lowerStr domain = domain →
        looksLikeMachineUser lex (c0 :: crest) = false →
        looksHumanEnough lex (c0 :: crest) = true →
        (decontaminatePhoneSuffixUser lex (digits ++ c0 :: crest) domain text
            = c0 :: crest
          ↔ (containsSub (lowerStr text) ((c0 :: crest) ++ '@' :: domain) = true
             ∨ 5 ≤ digits.length)) ∧
        (decontaminatePhoneSuffixUser lex (digits ++ c0 :: crest) domain text
            = c0 :: crest ∨
         decontaminatePhoneSuffixUser lex (digits ++ c0 :: crest) domain text
            = digits ++ c0 :: crest)) ∧
    extractEmailsFromText lexPlain (strOf "+420 226 200 150 qarta@qarta.cz")
      = [strOf "qarta@qarta.cz"] ∧
    extractEmailsFromText lexPlain (strOf "+420 226 200 150qarta@qarta.cz")
      = [strOf "qarta@qarta.cz"] := by
  refine ⟨?_, by decide, by decide⟩
  intro lex digits c0 crest domain text hdig hdig3 hcl hc0 hcls hlowu hlowd
    hmach hhum
  have hdignil : digits ≠ [] := by
    intro he; rw [he] at hdig3; simp at hdig3
  have hc0d : isDigitCh c0 = false := by
    by_cases hup : isDigitCh c0 = true
    · exfalso
      have hdigle : ('0' ≤ c0 ∧ c0 ≤ '9') := by simpa [isDigitCh] using hup
      have halpha : ('a' ≤ c0 ∧ c0 ≤ 'z') ∨ ('A' ≤ c0 ∧ c0 ≤ 'Z') := by
        simpa [isAlphaCh, isLowerCh, isUpperCh] using hc0
      have n2 : c0.toNat ≤ 57 := by
        have := hdigle.2
        simp [Char.le_def, UInt32.le_def] at this
        simpa [Char.toNat] using this
      rcases halpha with ⟨hl, _⟩ | ⟨hl, _⟩
      · have n3 : 97 ≤ c0.toNat := by
          simp [Char.le_def, UInt32.le_def] at hl
          simpa [Char.toNat] using hl
        omega
      · have n3 : 65 ≤ c0.toNat := by
          simp [Char.le_def, UInt32.le_def] at hl
          simpa [Char.toNat] using hl
        omega
    · simpa using hup
  have htw : (digits ++ c0 :: crest).takeWhile isDigitCh = digits :=
    takeWhile_append_all hdig (by simp [hc0d])
  have hdrop : (digits ++ c0 :: crest).drop digits.length = c0 :: crest :=
    List.drop_left digits (c0 :: crest)
  unfold decontaminatePhoneSuffixUser
  simp only [hlowu, hlowd, htw, hdrop]
  rw [if_pos ?hcond]
  case hcond =>
    simp only [Bool.and_eq_true, decide_eq_true_eq]
    refine ⟨⟨⟨hdig3, by simpa using Nat.succ_le_succ hcl⟩, hc0⟩, hcls⟩
  rw [hmach]
  simp only [hhum, Bool.not_true, Bool.false_eq_true, if_false]
  constructor
  · constructor
    · intro heq
      by_cases hsub : containsSub (lowerStr text)
          ((c0 :: crest) ++ '@' :: domain) = true
      · exact Or.inl hsub
      · by_cases h5 : 5 ≤ digits.length
        · exact Or.inr h5
        · exfalso
          rw [if_neg (by simpa using hsub), if_neg (by simpa using h5)] at heq
          have := congrArg List.length heq
          simp only [List.length_append, List.length_cons] at this
          omega
    · intro hor
      rcases hor with hsub | h5
      · rw [if_pos hsub]
      · by_cases hsub : containsSub (lowerStr text)
            ((c0 :: crest) ++ '@' :: domain) = true
        · rw [if_pos hsub]
        · rw [if_neg (by simpa using hsub), if_pos h5]
  · by_cases hsub : containsSub (lowerStr text)
        ((c0 :: crest) ++ '@' :: domain) = true
    · rw [if_pos hsub]; exact Or.inl rfl
    · by_cases h5 : 5 ≤ digits.length
      · rw [if_neg (by simpa using hsub), if_pos h5]; exact Or.inl rfl
      · rw [if_neg (by simpa using hsub), if_neg (by simpa using h5)]
        exact Or.inr rfl

/-- Witness for C4 at a concrete input. -/
theorem C4_phone_tail_witness :
    (decontaminatePhoneSuffixUser lexPlain
        (strOf "150" ++ 'q' :: strOf "arta") (strOf "qarta.cz")
        (strOf "150qarta@qarta.cz")
      = 'q' :: strOf "arta"
      ↔ (containsSub (lowerStr (strOf "150qarta@qarta.cz"))
            (('q' :: strOf "arta") ++ '@' :: strOf "qarta.cz") = true
         ∨ 5 ≤ (strOf "150").length)) := by
  exact (C4_phone_tail.1 lexPlain (strOf "150") 'q' (strOf "arta")
    (strOf "qarta.cz") (strOf "150qarta@qarta.cz")
    (by decide) (by decide) (by decide) (by decide) (by decide)
    (by decide) (by decide) (by decide) (by decide)).1

/-! ## Claim C8 — idempotence of extraction

Stage 1: characters of a rendered accepted-email list trigger none of the
`normalizeEmailText` replacement patterns, so normalization is the
identity there. -/

theorem charToNat_of_le {a c : Char} (h : a ≤ c) : a.toNat ≤ c.toNat := by
  simp [Char.le_def, UInt32.le_def] at h
  simpa [Char.toNat] using h

theorem isLowerCh_toNat {c : Char} (h : isLowerCh c = true) :
    97 ≤ c.toNat ∧ c.toNat ≤ 122 := by
  unfold isLowerCh at h
  simp only [Bool.and_eq_true, decide_eq_true_eq] at h
  exact ⟨charToNat_of_le h.1, charToNat_of_le h.2⟩

theorem isDigitCh_toNat {c : Char} (h : isDigitCh c = true) :
    48 ≤ c.toNat ∧ c.toNat ≤ 57 := by
  unfold isDigitCh at h
  simp only [Bool.and_eq_true, decide_eq_true_eq] at h
  exact ⟨charToNat_of_le h.1, charToNat_of_le h.2⟩

theorem isUpperCh_toNat {c : Char} (h : isUpperCh c = true) :
    65 ≤ c.toNat ∧ c.toNat ≤ 90 := by
  unfold isUpperCh at h
  simp only [Bool.and_eq_true, decide_eq_true_eq] at h
  exact ⟨charToNat_of_le h.1, charToNat_of_le h.2⟩

theorem alpha_not_digit {c : Char} (h : isAlphaCh c = true) :
    isDigitCh c = false := by
  by_cases hd : isDigitCh c = true
  · exfalso
    rcases isDigitCh_toNat hd with ⟨d1, d2⟩
    unfold isAlphaCh at h
    simp only [Bool.or_eq_true] at h
    rcases h with h | h
    · rcases isLowerCh_toNat h with ⟨l1, _⟩; omega
    · rcases isUpperCh_toNat h with ⟨u1, _⟩; omega
  · simpa using hd

theorem isLower_ne_dot {c : Char} (h : isLowerCh c = true) : c ≠ '.' := by
  intro he
  rcases isLowerCh_toNat h with ⟨l1, _⟩
  subst he
  have hd : ('.').toNat = 46 := by decide
  omega

/-- the characters that can occur in a rendered accepted-email list. -/
def renderCh (c : Char) : Prop :=
  isLowerCh c = true ∨ isDigitCh c = true ∨ c = '.' ∨ c = '_' ∨
    c = '+' ∨ c = '-' ∨ c = '@' ∨ c = ' '

theorem renderCh_facts {c : Char} (h : renderCh c) :
    lowerChar c = c ∧ c.toNat ≤ 122 ∧ isZeroWidth c = false := by
  have hfix : lowerChar c = c := by
    rcases h with h | h | rfl | rfl | rfl | rfl | rfl | rfl
    · exact lowerChar_eq_of_isLower h
    · exact lowerChar_eq_of_isDigit h
    all_goals decide
  have hle : c.toNat ≤ 122 := by
    rcases h with h | h | rfl | rfl | rfl | rfl | rfl | rfl
    · exact (isLowerCh_toNat h).2
    · have := (isDigitCh_toNat h).2; omega
    all_goals decide
  refine ⟨hfix, hle, ?_⟩
  unfold isZeroWidth
  have h1 : ¬ (0x200B ≤ c.toNat) := by omega
  have h2 : ¬ (c.toNat = 0xFEFF) := by omega
  simp [h1, h2]

theorem renderCh_ne_trigger {c : Char} (h : renderCh c) :
    lowerChar c ≠ '&' ∧ lowerChar c ≠ '(' ∧ lowerChar c ≠ '[' := by
  rcases renderCh_facts h with ⟨hfix, hle, _⟩
  rw [hfix]
  have hne : ∀ a : Char, c.toNat ≠ a.toNat → c ≠ a := by
    intro a hna he
    exact hna (by rw [he])
  have hamp : ('&').toNat = 38 := by decide
  have hpar : ('(').toNat = 40 := by decide
  have hbrk : ('[').toNat = 91 := by decide
  refine ⟨hne _ ?_, hne _ ?_, hne _ ?_⟩
  · rcases h with h | h | rfl | rfl | rfl | rfl | rfl | rfl
    · have := (isLowerCh_toNat h).1; omega
    · have := (isDigitCh_toNat h).1; omega
    all_goals decide
  · rcases h with h | h | rfl | rfl | rfl | rfl | rfl | rfl
    · have := (isLowerCh_toNat h).1; omega
    · have := (isDigitCh_toNat h).1; omega
    all_goals decide
  · rcases h with h | h | rfl | rfl | rfl | rfl | rfl | rfl
    · have := (isLowerCh_toNat h).1; omega
    · have := (isDigitCh_toNat h).2; omega
    all_goals decide

theorem findLits_none_of_headmiss {lits : List Str} {c : Char} {cs : Str}
    (h : ∀ lit ∈ lits, ∀ l lt, lit = l :: lt → lowerChar c ≠ lowerChar l) :
    findLits lits (c :: cs) = none := by
  induction lits with
  | nil => rfl
  | cons lit ls ih =>
    cases lit with
    | nil =>
      show findLits ls (c :: cs) = none
      exact ih (fun x hx => h x (List.mem_cons_of_mem _ hx))
    | cons l lt =>
      show (match dropLitCI (l :: lt) (c :: cs) with
            | some r => some r
            | none => findLits ls (c :: cs)) = none
      have hd : dropLitCI (l :: lt) (c :: cs) = none := by
        unfold dropLitCI
        rw [if_neg (h (l :: lt) (List.mem_cons_self _ _) l lt rfl)]
      rw [hd]
      exact ih (fun x hx => h x (List.mem_cons_of_mem _ hx))

theorem replaceLitsGo_id {lits : List Str} {rep : Str} :
    ∀ (n : Nat) (s : Str),
      (∀ c ∈ s, ∀ lit ∈ lits, ∀ l lt, lit = l :: lt →
        lowerChar c ≠ lowerChar l) →
      replaceLitsGo lits rep n s = s := by
  intro n
  induction n with
  | zero => intro s _; cases s <;> rfl
  | succ n ih =>
    intro s h
    cases s with
    | nil => rfl
    | cons c cs =>
      show (match findLits lits (c :: cs) with
            | some r => rep ++ replaceLitsGo lits rep n r
            | none => c :: replaceLitsGo lits rep n cs) = c :: cs
      rw [findLits_none_of_headmiss (h c (List.mem_cons_self c cs))]
      rw [ih cs (fun x hx => h x (List.mem_cons_of_mem c hx))]

theorem findLits_nil_input : ∀ lits : List Str, findLits lits [] = none := by
  intro lits
  induction lits with
  | nil => rfl
  | cons lit ls ih =>
    cases lit with
    | nil => exact ih
    | cons l lt =>
      show (match dropLitCI (l :: lt) [] with
            | some r => some r
            | none => findLits ls []) = none
      rw [show dropLitCI (l :: lt) ([] : Str) = none from rfl]
      exact ih

theorem matchAtDot_none_of_headmiss {parens : List Str} {s : Str}
    (h : ∀ c ∈ s, ∀ lit ∈ parens, ∀ l lt, lit = l :: lt →
      lowerChar c ≠ lowerChar l) :
    matchAtDot parens [] s = none := by
  unfold matchAtDot
  simp only []
  have hrest : findLits parens (s.dropWhile isWsCh) = none := by
    rcases hd : s.dropWhile isWsCh with _ | ⟨c, cs⟩
    · exact findLits_nil_input parens
    · have hc : c ∈ s := by
        have hsub := (@List.dropWhile_sublist _ s isWsCh).subset
        exact hsub (by rw [hd]; exact List.mem_cons_self c cs)
      exact findLits_none_of_headmiss (h c hc)
  rw [hrest]
  by_cases hw : (s.takeWhile isWsCh).isEmpty = true
  · rw [if_pos hw]
  · rw [if_neg hw]
    rfl

theorem replaceAtDotGo_id {parens : List Str} {rep : Str} :
    ∀ (n : Nat) (s : Str),
      (∀ c ∈ s, ∀ lit ∈ parens, ∀ l lt, lit = l :: lt →
        lowerChar c ≠ lowerChar l) →
      replaceAtDotGo parens [] rep n s = s := by
  intro n
  induction n with
  | zero => intro s _; cases s <;> rfl
  | succ n ih =>
    intro s h
    cases s with
    | nil => rfl
    | cons c cs =>
      show (match matchAtDot parens [] (c :: cs) with
            | some r => rep ++ replaceAtDotGo parens [] rep n r
            | none => c :: replaceAtDotGo parens [] rep n cs) = c :: cs
      rw [matchAtDot_none_of_headmiss h]
      rw [ih cs (fun x hx => h x (List.mem_cons_of_mem c hx))]

theorem stripZeroWidth_id {s : Str} (h : ∀ c ∈ s, isZeroWidth c = false) :
    stripZeroWidth s = s := by
  unfold stripZeroWidth
  rw [List.filter_eq_self.mpr]
  intro c hc
  simp [h c hc]

/-- `normalizeEmailText` is the identity on text whose characters all come
from a rendered accepted-email list. -/
theorem normalizeEmailText_id {s : Str} (h : ∀ c ∈ s, renderCh c) :
    normalizeEmailText s = s := by
  have hmiss : ∀ (heads : List Char), ∀ c ∈ s,
      ∀ lit ∈ [strOf "&#64;", strOf "&#x40;", strOf "&commat;"],
      ∀ l lt, lit = l :: lt → lowerChar c ≠ lowerChar l := by
    intro _ c hc lit hlit l lt hform
    rcases renderCh_ne_trigger (h c hc) with ⟨h1, _, _⟩
    fin_cases hlit <;> (cases hform; simpa using h1)
  unfold normalizeEmailText
  simp only []
  rw [show replaceLits [strOf "&#64;", strOf "&#x40;", strOf "&commat;"]
      (strOf "@") s = s from replaceLitsGo_id _ s (hmiss [])]
  rw [show replaceLits [strOf "&#46;", strOf "&#x2e;", strOf "&period;"]
      (strOf ".") s = s from replaceLitsGo_id _ s ?_]
  rw [show replaceAtDot [strOf "(at)", strOf "[at]"] [] (strOf "@") s = s
      from replaceAtDotGo_id _ s ?_]
  rw [show replaceAtDot [strOf "(dot)", strOf "[dot]"] [] (strOf ".") s = s
      from replaceAtDotGo_id _ s ?_]
  exact stripZeroWidth_id (fun c hc => (renderCh_facts (h c hc)).2.2)
  all_goals
    intro c hc lit hlit l lt hform
    rcases renderCh_ne_trigger (h c hc) with ⟨h1, h2, h3⟩
    fin_cases hlit <;> cases hform <;>
      first
        | simpa using h1
        | simpa using h2
        | simpa using h3

/-! Stage 2: the scan of a rendered accepted-email list recovers exactly
its `(user, domain)` pairs. -/

theorem get_eq_of_drop :
    ∀ {l : Str} {n : Nat} {h : n < l.length} {c : Char} {t : Str},
      l.drop n = c :: t → l.get ⟨n, h⟩ = c := by
  intro l n
  induction n generalizing l with
  | zero =>
    intro h c t hd
    cases l with
    | nil => simp at h
    | cons a l' =>
      simp only [List.drop_zero] at hd
      cases hd
      rfl
  | succ n ih =>
    intro h c t hd
    cases l with
    | nil => simp at h
    | cons a l' =>
      simp only [List.drop_succ_cons] at hd
      exact ih hd

theorem drop_append_cons (A : Str) (x : Char) (L : Str) :
    (A ++ x :: L).drop (A.length + 1) = L := by
  have h1 : (A ++ x :: L).drop A.length = x :: L := List.drop_left A (x :: L)
  have h2 : (A ++ x :: L).drop (A.length + 1)
      = ((A ++ x :: L).drop A.length).drop 1 := by
    rw [List.drop_drop]
  rw [h2, h1]
  rfl

theorem takeWhile_all_of_true {p : Char → Bool} {l : Str}
    (h : ∀ c ∈ l, p c = true) : l.takeWhile p = l := by
  have := @takeWhile_append_all p l [] h (by simp)
  simpa using this

theorem domainSplitAt_render (A L : Str) (hA : A ≠ [])
    (hL2 : 2 ≤ L.length) (hLlow : ∀ c ∈ L, isLowerCh c = true) :
    ∀ m, A.length + m + 1 ≤ (A ++ '.' :: L).length →
      domainSplitAt (A ++ '.' :: L) (A.length + m) = some (A ++ '.' :: L, []) := by
  have hqlen : (A ++ '.' :: L).length = A.length + 1 + L.length := by
    rw [List.length_append, List.length_cons]
    omega
  have hdropA : (A ++ '.' :: L).drop A.length = '.' :: L :=
    List.drop_left A ('.' :: L)
  have hdropA1 : (A ++ '.' :: L).drop (A.length + 1) = L :=
    drop_append_cons A '.' L
  intro m
  induction m with
  | zero =>
    intro hm
    obtain ⟨k, hk⟩ : ∃ k, A.length = k + 1 := by
      cases hAl : A.length with
      | zero => exact absurd (List.length_eq_zero.mp hAl) hA
      | succ k => exact ⟨k, rfl⟩
    rw [Nat.add_zero, hk]
    unfold domainSplitAt
    have hlt : k + 1 < (A ++ '.' :: L).length := by omega
    rw [dif_pos hlt]
    have hget : (A ++ '.' :: L).get ⟨k + 1, hlt⟩ = '.' :=
      get_eq_of_drop (by rw [← hk]; exact hdropA)
    rw [if_pos hget]
    simp only []
    have hdrop2 : (A ++ '.' :: L).drop (k + 2) = L := by
      have : k + 2 = A.length + 1 := by omega
      rw [this]; exact hdropA1
    have hrun : ((A ++ '.' :: L).drop (k + 2)).takeWhile isAlphaCh = L := by
      rw [hdrop2]
      exact takeWhile_all_of_true
        (fun c hc => by simp [isAlphaCh, hLlow c hc])
    rw [if_pos (by rw [hrun]; exact hL2)]
    rw [hrun]
    have htake : (A ++ '.' :: L).take (k + 1) = A := by
      rw [← hk]
      exact List.take_left A ('.' :: L)
    have hdropEnd : (A ++ '.' :: L).drop (k + 2 + L.length) = [] := by
      apply List.drop_eq_nil_of_le
      omega
    rw [htake, hdropEnd]
    simp [Option.orElse]
  | succ m ih =>
    intro hm
    have e1 : A.length + (m + 1) = (A.length + m) + 1 := by omega
    rw [e1]
    unfold domainSplitAt
    have hlt : A.length + m + 1 < (A ++ '.' :: L).length := by omega
    rw [dif_pos hlt]
    have hdropm : (A ++ '.' :: L).drop (A.length + 1 + m) = L.drop m := by
      conv_rhs => rw [← hdropA1]
      rw [List.drop_drop]
    rcases hLd : L.drop m with _ | ⟨c, t⟩
    · exfalso
      have := congrArg List.length hLd
      simp only [List.length_drop, List.length_nil] at this
      omega
    · have hget : (A ++ '.' :: L).get ⟨A.length + m + 1, hlt⟩ = c := by
        apply get_eq_of_drop
        rw [show A.length + m + 1 = A.length + 1 + m by omega, hdropm, hLd]
      have hcmem : c ∈ L := by
        have hsub := (List.drop_sublist m L).subset
        exact hsub (by rw [hLd]; exact List.mem_cons_self c t)
      have hcne : c ≠ '.' := isLower_ne_dot (hLlow c hcmem)
      rw [if_neg (by rw [hget]; exact hcne)]
      simp only [Option.orElse]
      exact ih (by omega)

theorem findDomainSplit_render (A L : Str) (hA : A ≠ [])
    (hL2 : 2 ≤ L.length) (hLlow : ∀ c ∈ L, isLowerCh c = true) :
    findDomainSplit (A ++ '.' :: L) = some (A ++ '.' :: L, []) := by
  unfold findDomainSplit
  have hlen : (A ++ '.' :: L).length - 1 = A.length + L.length := by
    rw [List.length_append, List.length_cons]
    omega
  rw [hlen]
  exact domainSplitAt_render A L hA hL2 hLlow L.length
    (by rw [List.length_append, List.length_cons]; omega)

theorem matchEmailAt_render (u A L rest : Str)
    (hu : u ≠ []) (hulc : ∀ c ∈ u, localCls c = true)
    (hA : A ≠ []) (hdcls : ∀ c ∈ A ++ '.' :: L, domCls c = true)
    (hL2 : 2 ≤ L.length) (hLlow : ∀ c ∈ L, isLowerCh c = true)
    (hrest : rest = [] ∨ ∃ rt, rest = ' ' :: rt) :
    matchEmailAt (u ++ '@' :: ((A ++ '.' :: L) ++ rest))
      = some (u, A ++ '.' :: L, rest) := by
  have htwu : (u ++ '@' :: ((A ++ '.' :: L) ++ rest)).takeWhile localCls = u :=
    takeWhile_append_all hulc (by simp [localCls, isLowerCh, isUpperCh, isDigitCh])
  unfold matchEmailAt
  simp only [htwu]
  rw [if_neg (by simpa using hu)]
  rw [List.drop_left]
  simp only [matchAfterLocal]
  rw [if_pos trivial]
  have htwd : ((A ++ '.' :: L) ++ rest).takeWhile domCls = A ++ '.' :: L := by
    apply takeWhile_append_all hdcls
    rcases hrest with rfl | ⟨rt, rfl⟩
    · simp
    · simp [domCls, isLowerCh, isUpperCh, isDigitCh]
  simp only [htwd]
  rw [findDomainSplit_render A L hA hL2 hLlow]
  simp only [List.nil_append, List.drop_left]

theorem emailScanGo_ws (n : Nat) (t : Str) :
    emailScanGo (n + 1) (' ' :: t) = emailScanGo n t := by
  show (match matchEmailAt (' ' :: t) with
        | some (u, d, r) => (u, d) :: emailScanGo n r
        | none => emailScanGo n t) = emailScanGo n t
  have hm : matchEmailAt (' ' :: t) = none := by
    unfold matchEmailAt
    have : (' ' :: t).takeWhile localCls = [] := by
      rw [List.takeWhile_cons_of_neg]
      simp [localCls, isLowerCh, isUpperCh, isDigitCh]
    simp [this]
  rw [hm]

def ScanPair (p : Str × Str) : Prop :=
  p.1 ≠ [] ∧ (∀ c ∈ p.1, localCls c = true) ∧
  (∃ A L, p.2 = A ++ '.' :: L ∧ A ≠ [] ∧ 2 ≤ L.length ∧
    (∀ c ∈ L, isLowerCh c = true)) ∧
  (∀ c ∈ p.2, domCls c = true)

def renderWords : List Str → Str
  | [] => []
  | [e] => e
  | e :: f :: rest => e ++ ' ' :: renderWords (f :: rest)

theorem emailScanGo_render :
    ∀ (ps : List (Str × Str)) (n : Nat), (∀ p ∈ ps, ScanPair p) →
      (renderWords (ps.map (fun p => p.1 ++ '@' :: p.2))).length ≤ n →
      emailScanGo n (renderWords (ps.map (fun p => p.1 ++ '@' :: p.2))) = ps := by
  intro ps
  induction ps with
  | nil =>
    intro n _ _
    cases n <;> rfl
  | cons p ps' ih =>
    intro n hps hn
    rcases hsp : p with ⟨u, d⟩
    have hscan := hps p (List.mem_cons_self p ps')
    rw [hsp] at hscan
    rcases hscan with ⟨hu, hulc, ⟨A, L, hdAL, hA, hL2, hLlow⟩, hdcls⟩
    subst hsp
    cases ps' with
    | nil =>
      simp only [List.map_cons, List.map_nil, renderWords] at hn ⊢
      have hrlen : 1 ≤ (u ++ '@' :: d).length := by
        simp only [List.length_append, List.length_cons]
        omega
      obtain ⟨n', rfl⟩ : ∃ n', n = n' + 1 := by
        cases n with
        | zero => omega
        | succ k => exact ⟨k, rfl⟩
      obtain ⟨c, s', hs⟩ : ∃ c s', u ++ '@' :: d = c :: s' := by
        cases hu2 : u with
        | nil => exact absurd hu2 hu
        | cons a t => exact ⟨a, t ++ '@' :: d, by simp⟩
      rw [hs]
      show (match matchEmailAt (c :: s') with
            | some (u2, d2, r) => (u2, d2) :: emailScanGo n' r
            | none => emailScanGo n' s') = [(u, d)]
      rw [← hs]
      have hm := matchEmailAt_render u A L [] hu hulc hA
        (by rw [← hdAL]; exact hdcls) hL2 hLlow (Or.inl rfl)
      rw [List.append_nil] at hm
      rw [← hdAL] at hm
      rw [hm]
      cases n' <;> rfl
    | cons p2 ps2 =>
      have hrw : renderWords (List.map (fun q => q.1 ++ '@' :: q.2)
            ((u, d) :: p2 :: ps2))
          = (u ++ '@' :: d) ++ ' ' ::
            renderWords (List.map (fun q => q.1 ++ '@' :: q.2) (p2 :: ps2)) := by
        simp only [List.map_cons, renderWords]
      rw [hrw] at hn ⊢
      have hu1 : 1 ≤ u.length := List.length_pos.mpr hu
      have hlen2 :
          (renderWords (List.map (fun q => q.1 ++ '@' :: q.2)
            (p2 :: ps2))).length + 2 ≤ n := by
        simp only [List.length_append, List.length_cons] at hn
        omega
      obtain ⟨n', rfl⟩ : ∃ n', n = n' + 1 := ⟨n - 1, by omega⟩
      obtain ⟨c, s', hs⟩ : ∃ c s',
          (u ++ '@' :: d) ++ ' ' ::
            renderWords (List.map (fun q => q.1 ++ '@' :: q.2) (p2 :: ps2))
            = c :: s' := by
        cases hu2 : u with
        | nil => exact absurd hu2 hu
        | cons a t =>
          exact ⟨a, (t ++ '@' :: d) ++ ' ' ::
            renderWords (List.map (fun q => q.1 ++ '@' :: q.2) (p2 :: ps2)),
            by simp⟩
      have hm : matchEmailAt ((u ++ '@' :: d) ++ ' ' ::
            renderWords (List.map (fun q => q.1 ++ '@' :: q.2) (p2 :: ps2)))
          = some (u, d, ' ' ::
            renderWords (List.map (fun q => q.1 ++ '@' :: q.2) (p2 :: ps2))) := by
        generalize renderWords (List.map (fun q => q.1 ++ '@' :: q.2)
          (p2 :: ps2)) = T
        have hd2 : d = A ++ '.' :: L := hdAL
        subst hd2
        have hform : (u ++ '@' :: (A ++ '.' :: L)) ++ ' ' :: T
            = u ++ '@' :: ((A ++ '.' :: L) ++ ' ' :: T) := by simp
        rw [hform]
        exact matchEmailAt_render u A L (' ' :: T) hu hulc hA hdcls hL2 hLlow
          (Or.inr ⟨T, rfl⟩)
      rw [hs]
      show (match matchEmailAt (c :: s') with
            | some (u2, d2, r) => (u2, d2) :: emailScanGo n' r
            | none => emailScanGo n' s') = (u, d) :: p2 :: ps2
      rw [← hs, hm]
      show (u, d) :: emailScanGo n' (' ' ::
          renderWords (List.map (fun q => q.1 ++ '@' :: q.2) (p2 :: ps2)))
        = (u, d) :: p2 :: ps2
      obtain ⟨n'', rfl⟩ : ∃ n'', n' = n'' + 1 := ⟨n' - 1, by omega⟩
      rw [emailScanGo_ws]
      rw [ih n'' (fun q hq => hps q (List.mem_cons_of_mem _ hq)) (by omega)]

theorem lowerStr_drop (s : Str) (n : Nat) :
    lowerStr (s.drop n) = (lowerStr s).drop n :=
  List.map_drop lowerChar s n

theorem decont_eq (lex : EmailLexicon) (user domain t : Str) :
    decontaminatePhoneSuffixUser lex user domain t =
    (let u := lowerStr user
     let dp := u.takeWhile isDigitCh
     let cand := u.drop dp.length
     if 3 ≤ dp.length && 2 ≤ cand.length &&
        (match cand with | c :: _ => isAlphaCh c | [] => false) &&
        cand.all localCls then
       if looksLikeMachineUser lex cand then u
       else if !looksHumanEnough lex cand then u
       else if containsSub (lowerStr t) (cand ++ '@' :: lowerStr domain) then
         cand
       else if 5 ≤ dp.length then cand
       else u
     else u) := rfl

/-- the three text-independent ways `decontaminatePhoneSuffixUser` returns
the (lowered) user unchanged. -/
theorem decont_returns_w (lex : EmailLexicon) (w domain t : Str)
    (hw : lowerStr w = w)
    (h : looksLikeMachineUser lex (w.drop (w.takeWhile isDigitCh).length) = true
       ∨ looksHumanEnough lex (w.drop (w.takeWhile isDigitCh).length) = false
       ∨ (3 ≤ (w.takeWhile isDigitCh).length &&
            2 ≤ (w.drop (w.takeWhile isDigitCh).length).length &&
            (match w.drop (w.takeWhile isDigitCh).length with
             | c :: _ => isAlphaCh c | [] => false) &&
            (w.drop (w.takeWhile isDigitCh).length).all localCls) = false) :
    decontaminatePhoneSuffixUser lex w domain t = w := by
  rw [decont_eq lex w domain t]
  simp only [hw]
  rcases h with hm | hh | hg
  · split <;> rfl
  · have hh' : (!looksHumanEnough lex
        (w.drop (w.takeWhile isDigitCh).length)) = true := by simp [hh]
    split
    · split <;> first | rfl | rw [if_pos hh']
    · rfl
  · rw [if_neg (by rw [hg]; simp)]

/-- a lowered user with no leading digits is a fixed point of
`decontaminatePhoneSuffixUser` for every `text`. -/
theorem decont_of_digit_free (lex : EmailLexicon) (w domain t : Str)
    (hw : lowerStr w = w) (hdp : w.takeWhile isDigitCh = []) :
    decontaminatePhoneSuffixUser lex w domain t = w := by
  apply decont_returns_w lex w domain t hw
  right; right
  rw [hdp]
  simp

/-- when the lowered candidate email occurs in the (lowered) normalization
source, the output of `decontaminatePhoneSuffixUser` is a fixed point of
the same function for EVERY later text. -/
theorem decont_fixed_of_contains (lex : EmailLexicon) (user domain s : Str)
    (hc : containsSub (lowerStr s)
      (lowerStr user ++ '@' :: lowerStr domain) = true) (t : Str) :
    decontaminatePhoneSuffixUser lex
      (decontaminatePhoneSuffixUser lex user domain s) domain t
    = decontaminatePhoneSuffixUser lex user domain s := by
  rw [decont_eq lex user domain s]
  simp only []
  have hwu : lowerStr (lowerStr user) = lowerStr user := lowerStr_idem user
  split
  · next hg =>
    split
    · next hm =>
      exact decont_returns_w lex (lowerStr user) domain t hwu (Or.inl hm)
    · next hm =>
      split
      · next hh =>
        refine decont_returns_w lex (lowerStr user) domain t hwu
          (Or.inr (Or.inl ?_))
        simpa using hh
      · next hh =>
        have hdecomp : lowerStr user =
            (lowerStr user).takeWhile isDigitCh ++
            (lowerStr user).drop
              ((lowerStr user).takeWhile isDigitCh).length :=
          takeWhile_decomp isDigitCh (lowerStr user)
        have hcsub : containsSub (lowerStr s)
            ((lowerStr user).drop
              ((lowerStr user).takeWhile isDigitCh).length
              ++ '@' :: lowerStr domain) = true := by
          apply containsSub_of_infix
          have h1 : (lowerStr user ++ '@' :: lowerStr domain)
              <:+: lowerStr s := infix_of_containsSub hc
          have h2 : ((lowerStr user).drop
                ((lowerStr user).takeWhile isDigitCh).length
                ++ '@' :: lowerStr domain)
              <:+: (lowerStr user ++ '@' :: lowerStr domain) := by
            refine ⟨(lowerStr user).takeWhile isDigitCh, [], ?_⟩
            rw [List.append_nil, ← List.append_assoc, ← hdecomp]
          exact h2.trans h1
        rw [if_pos hcsub]
        simp only [Bool.and_eq_true, decide_eq_true_eq] at hg
        have hcand : ∃ c0 cr, (lowerStr user).drop
            ((lowerStr user).takeWhile isDigitCh).length = c0 :: cr ∧
            isAlphaCh c0 = true := by
          rcases hcc : (lowerStr user).drop
              ((lowerStr user).takeWhile isDigitCh).length with _ | ⟨c0, cr⟩
          · rw [hcc] at hg
            simp at hg
          · refine ⟨c0, cr, rfl, ?_⟩
            have := hg.1.2
            rw [hcc] at this
            exact this
        rcases hcand with ⟨c0, cr, hcc, hal⟩
        apply decont_of_digit_free
        · rw [lowerStr_drop, lowerStr_idem]
        · rw [hcc]
          rw [List.takeWhile_cons_of_neg]
          simp [alpha_not_digit hal]
  · next hg =>
    exact decont_returns_w lex (lowerStr user) domain t hwu
      (Or.inr (Or.inr (by simpa using hg)))

/-- every raw scan match is an infix of the scanned string. -/
theorem emailScanGo_infix :
    ∀ (n : Nat) (s : Str) (m : Str × Str), m ∈ emailScanGo n s →
      (m.1 ++ '@' :: m.2) <:+: s := by
  intro n
  induction n with
  | zero =>
    intro s m hm
    cases s <;> simp [emailScanGo] at hm
  | succ k ih =>
    intro s m hm
    cases s with
    | nil => simp [emailScanGo] at hm
    | cons c rest =>
      have heq : emailScanGo (k + 1) (c :: rest) =
          (match matchEmailAt (c :: rest) with
           | some (u, d, r) => (u, d) :: emailScanGo k r
           | none => emailScanGo k rest) := rfl
      rcases hmt : matchEmailAt (c :: rest) with _ | ⟨⟨u, d, r⟩⟩
      · rw [heq, hmt] at hm
        have hsub : rest <:+: (c :: rest) := ⟨[c], [], by simp⟩
        exact (ih rest m hm).trans hsub
      · rw [heq, hmt] at hm
        rcases List.mem_cons.mp hm with rfl | hm2
        · exact ⟨[], r, by rw [matchEmailAt_decomp hmt]; simp⟩
        · have hr : r <:+: (c :: rest) :=
            ⟨u ++ '@' :: d, [], by rw [matchEmailAt_decomp hmt]; simp⟩
          exact (ih r m hm2).trans hr

theorem emailScan_infix {s : Str} {m : Str × Str} (hm : m ∈ emailScan s) :
    (m.1 ++ '@' :: m.2) <:+: s :=
  emailScanGo_infix s.length s m hm

theorem validUser_ne_nil {lex : EmailLexicon} {u : Str}
    (h : isValidUser lex u = true) : u ≠ [] := by
  intro he
  subst he
  simp [isValidUser] at h

theorem validDomain_ne_nil {d : Str} (h : isValidDomain d = true) : d ≠ [] := by
  intro he
  subst he
  simp [isValidDomain] at h

/-- the structure `/\.[a-z]{2,}$/` forced by `isValidDomain`. -/
theorem validDomain_shape {d : Str} (h : isValidDomain d = true) :
    ∃ A L, d = A ++ '.' :: L ∧ A ≠ [] ∧ 2 ≤ L.length ∧
      ∀ c ∈ L, isLowerCh c = true := by
  cases d with
  | nil => simp [isValidDomain] at h
  | cons c0 dt =>
    unfold isValidDomain at h
    simp only [Bool.and_eq_true] at h
    have hshape := h.1.2
    rcases hmatch : (c0 :: dt).reverse.drop
        (((c0 :: dt).reverse.takeWhile isLowerCh).length) with _ | ⟨x, pre⟩
    · rw [hmatch] at hshape
      simp at hshape
    · rw [hmatch] at hshape
      simp only [Bool.and_eq_true, decide_eq_true_eq] at hshape
      have hlen : 2 ≤ ((c0 :: dt).reverse.takeWhile isLowerCh).length :=
        hshape.1
      have hx : x = '.' := hshape.2.1.1
      have hpre : pre ≠ [] := by
        have := hshape.2.1.2
        simpa using this
      subst hx
      refine ⟨pre.reverse, ((c0 :: dt).reverse.takeWhile isLowerCh).reverse,
        ?_, ?_, ?_, ?_⟩
      · have hdec := takeWhile_decomp isLowerCh (c0 :: dt).reverse
        rw [hmatch] at hdec
        have h2 := congrArg List.reverse hdec
        rw [List.reverse_reverse] at h2
        conv_lhs => rw [h2]
        simp
      · simpa [List.reverse_eq_nil_iff] using hpre
      · simpa using hlen
      · intro c hc
        exact List.mem_takeWhile_imp (List.mem_reverse.mp hc)

theorem scanPair_of_pairGood {lex : EmailLexicon} {p : Str × Str}
    (hu : isValidUser lex p.1 = true) (hd : isValidDomain p.2 = true) :
    ScanPair p := by
  refine ⟨validUser_ne_nil hu, ?_, ?_, ?_⟩
  · intro c hc
    rcases validUser_chars hu c hc with h | h | rfl | rfl | rfl | rfl
    · simp [localCls, h]
    · simp [localCls, h]
    all_goals decide
  · exact validDomain_shape hd
  · intro c hc
    rcases validDomain_chars hd c hc with h | h | rfl | rfl
    · simp [domCls, h]
    · simp [domCls, h]
    all_goals decide

/-- what `extractEmailsFromText` guarantees about every accepted email,
including that its user part is a fixed point of the phone-tail
decontamination for every later text. -/
def AcceptedFull (lex : EmailLexicon) (e : Str) : Prop :=
  ∃ u d, e = u ++ '@' :: d ∧ isValidUser lex u = true ∧
    isValidDomain d = true ∧ isBlockedDomain lex d = false ∧
    isPlaceholderOrTest lex u d = false ∧
    looksLikeFile lex (u ++ '@' :: d) = false ∧
    ∀ t, decontaminatePhoneSuffixUser lex u d t = u

theorem extractFold_acceptedFull (lex : EmailLexicon) (normalized : Str)
    (out : List Str) (m : Str × Str)
    (hinf : (m.1 ++ '@' :: m.2) <:+: normalized)
    (h : ∀ e ∈ out, AcceptedFull lex e) :
    ∀ e ∈ extractFold lex normalized out m, AcceptedFull lex e := by
  intro e he
  unfold extractFold at he
  simp only [] at he
  split at he
  · exact h e he
  · split at he
    · exact h e he
    · split at he
      · exact h e he
      · split at he
        · exact h e he
        · split at he
          · exact h e he
          · split at he
            · exact h e he
            · split at he
              · exact h e he
              · rename_i hne hvu hvd hbl hpl hfile hdup
                rcases List.mem_append.mp he with he | he
                · exact h e he
                · have he' : e = decontaminatePhoneSuffixUser lex
                      (lowerStr m.1) (lowerStr m.2) normalized
                      ++ '@' :: lowerStr m.2 := by simpa using he
                  refine ⟨_, _, he', ?_, ?_, ?_, ?_, ?_, ?_⟩
                  · simpa using hvu
                  · simpa using hvd
                  · simpa using hbl
                  · simpa using hpl
                  · simpa using hfile
                  · intro t
                    apply decont_fixed_of_contains lex (lowerStr m.1)
                      (lowerStr m.2) normalized ?_ t
                    rw [lowerStr_idem, lowerStr_idem]
                    apply containsSub_of_infix
                    have hmap := hinf.map lowerChar
                    simpa [lowerStr, show lowerChar '@' = '@' from by decide]
                      using hmap

theorem foldl_acceptedFull (lex : EmailLexicon) (normalized : Str) :
    ∀ (l : List (Str × Str)) (out : List Str),
      (∀ m ∈ l, (m.1 ++ '@' :: m.2) <:+: normalized) →
      (∀ e ∈ out, AcceptedFull lex e) →
      ∀ e ∈ l.foldl (extractFold lex normalized) out, AcceptedFull lex e := by
  intro l
  induction l with
  | nil => intro out _ h; simpa using h
  | cons m ms ih =>
    intro out hl h
    rw [List.foldl_cons]
    exact ih _ (fun q hq => hl q (List.mem_cons_of_mem m hq))
      (extractFold_acceptedFull lex normalized out m
        (hl m (List.mem_cons_self m ms)) h)

theorem extract_acceptedFull (lex : EmailLexicon) (text : Str) :
    ∀ e ∈ extractEmailsFromText lex text, AcceptedFull lex e := by
  unfold extractEmailsFromText
  exact foldl_acceptedFull lex _ _ []
    (fun m hm => emailScan_infix hm) (by simp)

theorem extractFold_nodup (lex : EmailLexicon) (normalized : Str)
    (out : List Str) (m : Str × Str) (h : out.Nodup) :
    (extractFold lex normalized out m).Nodup := by
  unfold extractFold
  simp only []
  split
  · exact h
  · split
    · exact h
    · split
      · exact h
      · split
        · exact h
        · split
          · exact h
          · split
            · exact h
            · split
              · exact h
              · rename_i hne hvu hvd hbl hpl hfile hdup
                rw [List.nodup_append]
                refine ⟨h, List.nodup_singleton _, ?_⟩
                intro a ha hamem
                simp only [List.mem_singleton] at hamem
                subst hamem
                exact hdup (by simpa using ha)

theorem foldl_nodup (lex : EmailLexicon) (normalized : Str) :
    ∀ (l : List (Str × Str)) (out : List Str), out.Nodup →
      (l.foldl (extractFold lex normalized) out).Nodup := by
  intro l
  induction l with
  | nil => intro out h; simpa using h
  | cons m ms ih =>
    intro out h
    rw [List.foldl_cons]
    exact ih _ (extractFold_nodup lex normalized out m h)

theorem extract_nodup (lex : EmailLexicon) (text : Str) :
    (extractEmailsFromText lex text).Nodup := by
  unfold extractEmailsFromText
  exact foldl_nodup lex _ _ [] List.nodup_nil

/-- the per-pair facts carried by each accepted email. -/
def PairGood (lex : EmailLexicon) (p : Str × Str) : Prop :=
  isValidUser lex p.1 = true ∧ isValidDomain p.2 = true ∧
  isBlockedDomain lex p.2 = false ∧ isPlaceholderOrTest lex p.1 p.2 = false ∧
  looksLikeFile lex (p.1 ++ '@' :: p.2) = false ∧
  ∀ t, decontaminatePhoneSuffixUser lex p.1 p.2 t = p.1

theorem exists_goodPairs (lex : EmailLexicon) :
    ∀ es : List Str, (∀ e ∈ es, AcceptedFull lex e) →
      ∃ ps : List (Str × Str),
        es = ps.map (fun q => q.1 ++ '@' :: q.2) ∧
        ∀ p ∈ ps, PairGood lex p := by
  intro es
  induction es with
  | nil => intro _; exact ⟨[], rfl, by simp⟩
  | cons e es' ih =>
    intro h
    obtain ⟨u, d, he, h1, h2, h3, h4, h5, h6⟩ :=
      h e (List.mem_cons_self e es')
    obtain ⟨ps, hps, hgood⟩ := ih (fun x hx => h x (List.mem_cons_of_mem e hx))
    refine ⟨(u, d) :: ps, by simp [he, hps], ?_⟩
    intro p hp
    rcases List.mem_cons.mp hp with rfl | hp2
    · exact ⟨h1, h2, h3, h4, h5, h6⟩
    · exact hgood p hp2

/-- every character of a rendered accepted-email list is tame. -/
theorem renderWords_renderCh (lex : EmailLexicon) :
    ∀ ps : List (Str × Str), (∀ p ∈ ps, PairGood lex p) →
      ∀ c ∈ renderWords (ps.map (fun q => q.1 ++ '@' :: q.2)), renderCh c := by
  intro ps
  induction ps with
  | nil =>
    intro _ c hc
    simp [renderWords] at hc
  | cons p ps' ih =>
    intro h c hc
    obtain ⟨hvu, hvd, -, -, -, -⟩ := h p (List.mem_cons_self p ps')
    have hchar : ∀ x ∈ p.1 ++ '@' :: p.2, renderCh x := by
      intro x hx
      rcases List.mem_append.mp hx with hx | hx
      · have := validUser_chars hvu x hx
        unfold renderCh
        tauto
      · rcases List.mem_cons.mp hx with rfl | hx
        · unfold renderCh
          exact Or.inr (Or.inr (Or.inr (Or.inr (Or.inr (Or.inr
            (Or.inl rfl))))))
        · have := validDomain_chars hvd x hx
          unfold renderCh
          tauto
    cases ps' with
    | nil =>
      simp only [List.map_cons, List.map_nil, renderWords] at hc
      exact hchar c hc
    | cons p2 ps2 =>
      simp only [List.map_cons, renderWords] at hc
      rcases List.mem_append.mp hc with hx | hx
      · exact hchar c hx
      · rcases List.mem_cons.mp hx with rfl | hx2
        · unfold renderCh
          exact Or.inr (Or.inr (Or.inr (Or.inr (Or.inr (Or.inr
            (Or.inr rfl))))))
        · exact ih (fun q hq => h q (List.mem_cons_of_mem p hq)) c
            (by rw [List.map_cons]; exact hx2)

/-- a fold of `extractFold` over already-accepted pairs reproduces them. -/
theorem foldl_render_exact (lex : EmailLexicon) (norm2 : Str) :
    ∀ (ps : List (Str × Str)) (acc : List Str),
      (∀ p ∈ ps, PairGood lex p) →
      (acc ++ ps.map (fun q => q.1 ++ '@' :: q.2)).Nodup →
      ps.foldl (extractFold lex norm2) acc
        = acc ++ ps.map (fun q => q.1 ++ '@' :: q.2) := by
  intro ps
  induction ps with
  | nil =>
    intro acc _ _
    simp
  | cons p ps' ih =>
    intro acc h hnd
    simp only [List.map_cons] at hnd
    obtain ⟨hvu, hvd, hbl, hpl, hfile, hfix⟩ := h p (List.mem_cons_self p ps')
    have hu1 := validUser_ne_nil hvu
    have hd1 := validDomain_ne_nil hvd
    rw [List.foldl_cons]
    have hstep : extractFold lex norm2 acc p
        = acc ++ [p.1 ++ '@' :: p.2] := by
      unfold extractFold
      simp only []
      rw [validUser_lowerFixed hvu, validDomain_lowerFixed hvd]
      rw [if_neg (by simp [hu1, hd1])]
      rw [hfix norm2]
      rw [if_neg (by simp [hvu])]
      rw [if_neg (by simp [hvd])]
      rw [if_neg (by simp [hbl])]
      rw [if_neg (by simp [hpl])]
      rw [if_neg (by simp [hfile])]
      rw [if_neg ?hcont]
      case hcont =>
        have hnotin : (p.1 ++ '@' :: p.2) ∉ acc := by
          intro hmem
          rw [List.nodup_append] at hnd
          exact hnd.2.2 hmem (List.mem_cons_self _ _)
        simpa using hnotin
    rw [hstep]
    rw [ih (acc ++ [p.1 ++ '@' :: p.2])
      (fun q hq => h q (List.mem_cons_of_mem p hq))
      (by simpa using hnd)]
    simp

/-- C8: extraction is idempotent — rendering the accepted emails of any
text as a whitespace-separated document and extracting again returns
exactly the same list: every accepted email survives re-normalization,
re-matching, phone-tail decontamination and all validation filters
unchanged, and no new email appears. -/
theorem C8_idempotence (lex : EmailLexicon) (text : Str) :
    extractEmailsFromText lex
      (renderWords (extractEmailsFromText lex text))
      = extractEmailsFromText lex text := by
  obtain ⟨ps, hmap, hgood⟩ :=
    exists_goodPairs lex (extractEmailsFromText lex text)
      (extract_acceptedFull lex text)
  have hnd : (extractEmailsFromText lex text).Nodup := extract_nodup lex text
  rw [hmap] at hnd ⊢
  have hrc : ∀ c ∈ renderWords (List.map (fun q => q.1 ++ '@' :: q.2) ps),
      renderCh c := renderWords_renderCh lex ps hgood
  have hnorm : normalizeEmailText
      (renderWords (List.map (fun q => q.1 ++ '@' :: q.2) ps))
      = renderWords (List.map (fun q => q.1 ++ '@' :: q.2) ps) :=
    normalizeEmailText_id hrc
  unfold extractEmailsFromText
  simp only []
  rw [hnorm]
  have hscan : emailScan
      (renderWords (List.map (fun q => q.1 ++ '@' :: q.2) ps)) = ps := by
    unfold emailScan
    exact emailScanGo_render ps
      (renderWords (List.map (fun q => q.1 ++ '@' :: q.2) ps)).length
      (fun p hp => scanPair_of_pairGood (hgood p hp).1 (hgood p hp).2.1)
      (le_refl _)
  rw [hscan]
  have hres := foldl_render_exact lex
    (renderWords (List.map (fun q => q.1 ++ '@' :: q.2) ps)) ps []
    hgood (by simpa using hnd)
  simpa using hres
